import Mathlib

/-!
Verification of the Phase-10 hand-pattern engine (src/sim.py).

The Python engine decides whether a 10-card hand satisfies a declarative
pattern: set-type conditions (`SameNumber`, `SameColour`), run-type
conditions (`AnyList`, `SameColourList`) and disjoint conjunctions
(`GroupCondition`).  Cards are identified by hand position (0..9);
every condition enumerates the position sets (`List (Finset ℕ)`) that
satisfy it.

This file is a shallow embedding: each Python function is translated to a
total Lean function of the same name and structure.  Python `while` loops
are translated to fuel-bounded structural recursion (the fuel passed at
every call site provably exceeds the loop's iteration count, see the
lemmas about `buildStreakF` / `runPossF`).  Python `set` values become
`Finset ℕ`; iteration order over Python sets is unspecified, so wherever
the source iterates over a set the embedding fixes a concrete order and
the theorems below only use order-insensitive consequences.
-/

/-- Card (src/sim.py:6-10): colour, number, and a `type` tag
("normal" / "joker").  The number `-1` is the wildcard sentinel. -/
structure Card where
  colour : String
  number : ℤ
  type : String
deriving DecidableEq, Repr

/-- Default card used to make list indexing total; every index the engine
uses is in range, so this value never influences a result. -/
def dCard : Card := ⟨"", 0, "normal"⟩

/-- Hand.__init__ (src/sim.py:13-17): raises unless exactly 10 cards are
supplied.  Fallibility is modelled with `Except`. -/
def handInit (cards : List Card) : Except String (List Card) :=
  if cards.length < 10 ∨ 10 < cards.length then
    Except.error "Invalid number of cards"
  else Except.ok cards

/-- The number of the card at position `p` (wildcard sentinel `-1`). -/
def numAt (cards : List Card) (p : ℕ) : ℤ := (cards.getD p dCard).number

/-- The colour of the card at position `p`. -/
def colAt (cards : List Card) (p : ℕ) : String := (cards.getD p dCard).colour

/-- `enumerate(hand.cards)` (pairs (position, card)). -/
def handEnum (cards : List Card) : List (ℕ × Card) :=
  (List.range cards.length).map (fun i => (i, cards.getD i dCard))

/-- SetBased.internal_possibilities (src/sim.py:66-86): recursively remove
`remaining_levels` elements from `sub_range` (first removal index left to
right; later removals only at or after the current index), accumulating the
kept elements into the prefix.  The Python code is only ever called with
`remaining_levels ≥ 1`; with `remaining_levels = 0` it would recurse
without bound, so the `0` case below is unreachable at every call site
(see `find_matches` below, which guards it). -/
def internal_possibilities : Finset ℕ → List ℕ → ℕ → List (Finset ℕ)
  | _, _, 0 => []
  | pfx, sub_range, 1 =>
      (List.range sub_range.length).map
        (fun rem => (sub_range.eraseIdx rem).toFinset ∪ pfx)
  | pfx, sub_range, n+2 =>
      (((List.range (sub_range.length + 1 - (n+2))).map (fun rem =>
          internal_possibilities (sub_range.take rem).toFinset
            (sub_range.drop (rem+1)) (n+1))).flatten).map
        (fun s => s ∪ pfx)

/-- The `matches` list of SameNumber.find_matches (src/sim.py:174-177):
positions whose card bears the candidate number or is a wildcard. -/
def matchesByNumber (cards : List Card) (number : ℤ) : List ℕ :=
  (List.range cards.length).filter
    (fun i => numAt cards i == number || numAt cards i == -1)

/-- SameNumber.find_matches (src/sim.py:172-184). -/
def find_matches_number (required_number : ℕ) (cards : List Card)
    (number : ℤ) : List (Finset ℕ) :=
  let ms := matchesByNumber cards number
  if ms.length < required_number then []
  else if ms.length = required_number then [ms.toFinset]
  else internal_possibilities ∅ ms (ms.length - required_number)

/-- SameNumber.candidates (src/sim.py:167-170): the distinct non-wildcard
numbers present in the hand.  Python builds a `set`; the embedding uses
`dedup` (first occurrence kept), which fixes one iteration order. -/
def sameNumberCandidates (cards : List Card) : List ℤ :=
  ((cards.filter (fun c => c.number != -1)).map (fun c => c.number)).dedup

/-- Python's `needle in hay` on strings (substring test). -/
def strContainsSub (hay needle : String) : Bool :=
  decide (needle.data <:+: hay.data)

/-- The `matches` list of SameColour.find_matches (src/sim.py:198-201):
positions whose card bears the candidate colour or is a wildcard. -/
def matchesByColour (cards : List Card) (colour : String) : List ℕ :=
  (List.range cards.length).filter
    (fun i => colAt cards i == colour || numAt cards i == -1)

/-- SameColour.find_matches (src/sim.py:196-208). -/
def find_matches_colour (required_number : ℕ) (cards : List Card)
    (colour : String) : List (Finset ℕ) :=
  let ms := matchesByColour cards colour
  if ms.length < required_number then []
  else if ms.length = required_number then [ms.toFinset]
  else internal_possibilities ∅ ms (ms.length - required_number)

/-- SameColour.candidates (src/sim.py:191-194): the distinct colours of
cards whose colour does not contain "black" (note: this is a colour test,
not a wildcard test — a non-black wildcard generates a candidate). -/
def sameColourCandidates (cards : List Card) : List String :=
  ((cards.filter (fun c => !(strContainsSub c.colour "black"))).map
    (fun c => c.colour)).dedup

/-- Insert a number into an ascending list, keeping it ascending. -/
def insortNat (a : ℕ) : List ℕ → List ℕ
  | [] => [a]
  | b :: t => if a ≤ b then a :: b :: t else b :: insortNat a t

instance : LeftCommutative insortNat := by
  constructor
  intro a b l
  induction l with
  | nil =>
    by_cases h : a ≤ b <;> by_cases h' : b ≤ a
    · have : a = b := le_antisymm h h'
      subst this
      rfl
    · simp [insortNat, h, h']
    · simp [insortNat, h, h']
    · omega
  | cons c t ih =>
    by_cases hb : b ≤ c <;> by_cases ha : a ≤ c
    · by_cases hab : a ≤ b <;> by_cases hba : b ≤ a
      · have : a = b := le_antisymm hab hba
        subst this
        rfl
      · simp [insortNat, ha, hb, hab, hba]
      · simp [insortNat, ha, hb, hab, hba]
      · omega
    · have hab : ¬ a ≤ b := by omega
      simp [insortNat, ha, hb, hab]
    · have hab : a ≤ b := by omega
      have hba : ¬ b ≤ a := by omega
      simp [insortNat, ha, hb, hab, hba]
    · simp [insortNat, ha, hb, ih]

/-- Iterate over a Python set of positions: the embedding's canonical
order is ascending (Python's own set order is unspecified). -/
def finsetAsc (s : Finset ℕ) : List ℕ :=
  Multiset.foldr insortNat [] s.val

/-- ListBased.get_combinations (src/sim.py:110-121): Cartesian product of
the slot sets, one chosen position per slot.  On `[]` the Python code
recurses without bound (it is never called with `[]` when
`required_number ≥ 1`); the `[]` case below is that unreachable case. -/
def get_combinations : List (Finset ℕ) → List (Finset ℕ)
  | [] => []
  | [P] => (finsetAsc P).map (fun pos => ({pos} : Finset ℕ))
  | P :: Q :: rest =>
      ((finsetAsc P).map (fun position =>
        (get_combinations (Q :: rest)).map (fun s => s ∪ {position}))).flatten

/-- ListBased.get_possibilities (src/sim.py:123-132): slide a window of
length `required_number` over the streak and take each window's
combinations.  `full_list[i : required_number+i]` is
`(full_list.drop i).take required_number`. -/
def get_possibilities (required_number : ℕ) (full_list : List (Finset ℕ)) :
    List (Finset ℕ) :=
  ((List.range (full_list.length + 1 - required_number)).map
    (fun i => get_combinations ((full_list.drop i).take required_number))).flatten

/-- The inner `while not streak_broken` loop of ListBased.possibilities
(src/sim.py:145-154), fuel-bounded.  Each iteration appends one slot:
the positions bearing the current number if any exist, otherwise one
wildcard popped from the END of `jokers` (Python `list.pop()`); the
streak breaks when neither exists.  Any fuel exceeding
`cands.length + jokers.length` reaches the break (each iteration either
passes a number that some card bears, or consumes a joker), so the
canonical call below never truncates. -/
def buildStreakF : ℕ → List (ℕ × Card) → List ℕ → ℤ → List (Finset ℕ)
  | 0, _, _, _ => []
  | fuel+1, cands, jokers, cur =>
    let number_cards := cands.filter (fun p => p.2.number == cur)
    if number_cards.isEmpty then
      if jokers.isEmpty then []
      else ({jokers.getLastD 0} : Finset ℕ) ::
        buildStreakF fuel cands jokers.dropLast (cur + 1)
    else
      ((number_cards.map Prod.fst).toFinset) ::
        buildStreakF fuel cands jokers (cur + 1)

/-- Instrumented copy of `buildStreakF` that records, for each slot, the
number the slot stands for; `buildStreakF` is its projection
(`buildStreakF_proj`). -/
def buildStreakNF : ℕ → List (ℕ × Card) → List ℕ → ℤ → List (ℤ × Finset ℕ)
  | 0, _, _, _ => []
  | fuel+1, cands, jokers, cur =>
    let number_cards := cands.filter (fun p => p.2.number == cur)
    if number_cards.isEmpty then
      if jokers.isEmpty then []
      else (cur, ({jokers.getLastD 0} : Finset ℕ)) ::
        buildStreakNF fuel cands jokers.dropLast (cur + 1)
    else
      (cur, ((number_cards.map Prod.fst).toFinset)) ::
        buildStreakNF fuel cands jokers (cur + 1)

/-- The wildcard positions, in hand order.  Python filters the by-number
sorted candidate list; the sort is stable and all wildcards share the key
`-1`, so they appear in hand order there as well; `pop()` then consumes
them from the highest position down. -/
def availableJokers (cands : List (ℕ × Card)) : List ℕ :=
  (cands.filter (fun p => p.2.number == -1)).map Prod.fst

/-- The outer `while current_number <= 12` loop of ListBased.possibilities
(src/sim.py:139-156), fuel-bounded.  After the inner loop the scan
variable has advanced by (streak length + 1) — one increment per appended
slot plus one for the breaking iteration — so each outer iteration
strictly advances `cur`; fuel 13 suffices from `cur = 1` and the
canonical call below never truncates.  The jokers are recomputed afresh
for every streak, exactly as the source does. -/
def runPossF : ℕ → ℕ → List (ℕ × Card) → ℤ → List (Finset ℕ)
  | 0, _, _, _ => []
  | fuel+1, required_number, cands, cur =>
    if cur ≤ 12 then
      let jokers := availableJokers cands
      let streak := buildStreakF (cands.length + jokers.length + 1)
        cands jokers cur
      get_possibilities required_number streak ++
        runPossF fuel required_number cands (cur + streak.length + 1)
    else []

/-- AnyList.possibilities = ListBased.possibilities (src/sim.py:134-156)
with AnyList.candidates (src/sim.py:215-216).  The source sorts the
(position, card) pairs by number; the sort's only observable effect here
is the relative order of the wildcards (slot contents are sets and the
by-number filters are order-insensitive), and the sort is stable, so the
embedding walks the unsorted enumeration and draws wildcards in hand
order, which yields the same output. -/
def anyListPossibilities (required_number : ℕ) (cards : List Card) :
    List (Finset ℕ) :=
  runPossF 13 required_number (handEnum cards) 1

/-- SameColourList.all_same_colour (src/sim.py:223-232): take the first
non-wildcard member as the target and require the target's colour to be a
substring of EVERY member's colour — including wildcard members.  The
source iterates over a Python set; the embedding iterates in ascending
position order. -/
def all_same_colour (cards : List Card) (positions : Finset ℕ) : Bool :=
  let sorted := finsetAsc positions
  let targets := sorted.filter (fun pos => numAt cards pos != -1)
  match targets with
  | [] => true
  | t :: _ =>
    sorted.all (fun pos => strContainsSub (colAt cards pos) (colAt cards t))

/-- SameColourList.possibilities (src/sim.py:234-236). -/
def sameColourListPossibilities (required_number : ℕ) (cards : List Card) :
    List (Finset ℕ) :=
  (anyListPossibilities required_number cards).filter
    (fun s => all_same_colour cards s)

/-- One folding step of GroupCondition.possibilities (src/sim.py:252-258):
pair every accumulated set with every new set, keep the disjoint pairs,
emit their unions. -/
def groupStep (acc bs : List (Finset ℕ)) : List (Finset ℕ) :=
  (acc.map (fun a => (bs.filter (fun b => a ∩ b = ∅)).map
    (fun b => a ∪ b))).flatten

/-- GroupCondition.possibilities (src/sim.py:243-259): seed the fold with
the first sub-condition's list, fold the rest with `groupStep`. -/
def groupPossibilities : List (List (Finset ℕ)) → List (Finset ℕ)
  | [] => []
  | s :: rest => rest.foldl groupStep s

/-- The condition hierarchy (Condition / SetBased / ListBased /
GroupCondition) as a sum type. -/
inductive Cond where
  | sameNumber (required_number : ℕ)
  | sameColour (required_number : ℕ)
  | anyList (required_number : ℕ)
  | sameColourList (required_number : ℕ)
  | group (sub_conditions : List Cond)

mutual

/-- Condition.possibilities, dispatched over the condition type.
SetBased.possibilities (src/sim.py:96-103) extends the per-candidate
matches; GroupCondition computes every sub-condition's list and folds. -/
def possibilities : Cond → List Card → List (Finset ℕ)
  | .sameNumber k, cards =>
      ((sameNumberCandidates cards).map
        (fun n => find_matches_number k cards n)).flatten
  | .sameColour k, cards =>
      ((sameColourCandidates cards).map
        (fun c => find_matches_colour k cards c)).flatten
  | .anyList k, cards => anyListPossibilities k cards
  | .sameColourList k, cards => sameColourListPossibilities k cards
  | .group subs, cards => groupPossibilities (possList subs cards)

/-- The `[condition.possibilities(hand) for condition in sub_conditions]`
list comprehension of GroupCondition.possibilities (src/sim.py:244-245). -/
def possList : List Cond → List Card → List (List (Finset ℕ))
  | [], _ => []
  | c :: cs, cards => possibilities c cards :: possList cs cards

end

/-- Condition.hand_passed (src/sim.py:51-55): true iff the possibility
list is non-empty.  Defined once on the shared base; no condition type
overrides it. -/
def hand_passed (c : Cond) (cards : List Card) : Bool :=
  decide (0 < (possibilities c cards).length)

/-- Condition.__init__ (src/sim.py:46-49): it only stores its arguments —
there is NO validation of `required_number` and no code path that raises.
Modelled with `Except` to make the absence of failure statable. -/
def conditionInit (required_number : ℤ) (sub_conditions : List Cond) :
    Except String (ℤ × List Cond) :=
  Except.ok (required_number, sub_conditions)

/-- The worked example hand of the repository (src/sim.py:262-273). -/
def testHand : List Card :=
  [⟨"blue", 1, "normal"⟩, ⟨"blue", 2, "normal"⟩, ⟨"blue", 3, "normal"⟩,
   ⟨"red", 4, "normal"⟩, ⟨"red", 5, "normal"⟩, ⟨"red", 6, "normal"⟩,
   ⟨"red", 6, "normal"⟩, ⟨"red", -1, "normal"⟩, ⟨"red", -1, "normal"⟩,
   ⟨"red", -1, "normal"⟩]

/-- Is the condition a Set/Run leaf (not a group)? -/
def isLeaf : Cond → Bool
  | .group _ => false
  | _ => true

/-- The `required_number` stored by the condition (a group stores 0,
src/sim.py:240-241). -/
def requiredOf : Cond → ℕ
  | .sameNumber k => k
  | .sameColour k => k
  | .anyList k => k
  | .sameColourList k => k
  | .group _ => 0

mutual

/-- All required counts in the condition tree lie in [1,10] (the spec's
construction contract). -/
def requiredOkB : Cond → Bool
  | .sameNumber k => decide (1 ≤ k ∧ k ≤ 10)
  | .sameColour k => decide (1 ≤ k ∧ k ≤ 10)
  | .anyList k => decide (1 ≤ k ∧ k ≤ 10)
  | .sameColourList k => decide (1 ≤ k ∧ k ≤ 10)
  | .group subs => requiredOkList subs

/-- `requiredOkB` on every member of a list. -/
def requiredOkList : List Cond → Bool
  | [] => true
  | c :: cs => requiredOkB c && requiredOkList cs

end

/-!  An `Option`-valued copy of the enumeration pipeline.  `none` marks
exactly the places where the Python source would fail to return
(unbounded recursion in `get_combinations([])` and in
`internal_possibilities` at `remaining_levels = 0`); every other code
path mirrors the plain definitions.  `possibilitiesO = some ∘
possibilities` for in-contract conditions is the totality claim. -/

/-- Option-valued `internal_possibilities`; `none` at the divergent
`remaining_levels = 0` case. -/
def internal_possibilitiesO : Finset ℕ → List ℕ → ℕ → Option (List (Finset ℕ))
  | _, _, 0 => none
  | pfx, sub_range, 1 =>
      some ((List.range sub_range.length).map
        (fun rem => (sub_range.eraseIdx rem).toFinset ∪ pfx))
  | pfx, sub_range, n+2 =>
      ((List.range (sub_range.length + 1 - (n+2))).mapM (fun rem =>
          internal_possibilitiesO (sub_range.take rem).toFinset
            (sub_range.drop (rem+1)) (n+1))).map
        (fun ls => ls.flatten.map (fun s => s ∪ pfx))

/-- Option-valued SameNumber.find_matches. -/
def find_matches_numberO (required_number : ℕ) (cards : List Card)
    (number : ℤ) : Option (List (Finset ℕ)) :=
  let ms := matchesByNumber cards number
  if ms.length < required_number then some []
  else if ms.length = required_number then some [ms.toFinset]
  else internal_possibilitiesO ∅ ms (ms.length - required_number)

/-- Option-valued SameColour.find_matches. -/
def find_matches_colourO (required_number : ℕ) (cards : List Card)
    (colour : String) : Option (List (Finset ℕ)) :=
  let ms := matchesByColour cards colour
  if ms.length < required_number then some []
  else if ms.length = required_number then some [ms.toFinset]
  else internal_possibilitiesO ∅ ms (ms.length - required_number)

/-- Option-valued `get_combinations`; `none` at the divergent `[]` case. -/
def get_combinationsO : List (Finset ℕ) → Option (List (Finset ℕ))
  | [] => none
  | [P] => some ((finsetAsc P).map (fun pos => ({pos} : Finset ℕ)))
  | P :: Q :: rest =>
      (get_combinationsO (Q :: rest)).map (fun sub =>
        ((finsetAsc P).map (fun position =>
          sub.map (fun s => s ∪ {position}))).flatten)

/-- Option-valued `get_possibilities`. -/
def get_possibilitiesO (required_number : ℕ) (full_list : List (Finset ℕ)) :
    Option (List (Finset ℕ)) :=
  ((List.range (full_list.length + 1 - required_number)).mapM
    (fun i => get_combinationsO
      ((full_list.drop i).take required_number))).map List.flatten

/-- Option-valued `runPossF`. -/
def runPossFO : ℕ → ℕ → List (ℕ × Card) → ℤ → Option (List (Finset ℕ))
  | 0, _, _, _ => some []
  | fuel+1, required_number, cands, cur =>
    if cur ≤ 12 then
      let jokers := availableJokers cands
      let streak := buildStreakF (cands.length + jokers.length + 1)
        cands jokers cur
      do
        let a ← get_possibilitiesO required_number streak
        let b ← runPossFO fuel required_number cands (cur + streak.length + 1)
        some (a ++ b)
    else some []

/-- Option-valued AnyList.possibilities. -/
def anyListPossibilitiesO (required_number : ℕ) (cards : List Card) :
    Option (List (Finset ℕ)) :=
  runPossFO 13 required_number (handEnum cards) 1

/-- Option-valued SameColourList.possibilities. -/
def sameColourListPossibilitiesO (required_number : ℕ) (cards : List Card) :
    Option (List (Finset ℕ)) :=
  (anyListPossibilitiesO required_number cards).map
    (fun l => l.filter (fun s => all_same_colour cards s))

mutual

/-- Option-valued Condition.possibilities. -/
def possibilitiesO : Cond → List Card → Option (List (Finset ℕ))
  | .sameNumber k, cards =>
      ((sameNumberCandidates cards).mapM
        (fun n => find_matches_numberO k cards n)).map List.flatten
  | .sameColour k, cards =>
      ((sameColourCandidates cards).mapM
        (fun c => find_matches_colourO k cards c)).map List.flatten
  | .anyList k, cards => anyListPossibilitiesO k cards
  | .sameColourList k, cards => sameColourListPossibilitiesO k cards
  | .group subs, cards => (possListO subs cards).map groupPossibilities

/-- Option-valued `possList`. -/
def possListO : List Cond → List Card → Option (List (List (Finset ℕ)))
  | [], _ => some []
  | c :: cs, cards => do
      let a ← possibilitiesO c cards
      let b ← possListO cs cards
      some (a :: b)

end

/-- Replace every card's `type` field according to `g`, keeping colour and
number (used to state that the engine never consults the type field). -/
def retype (g : Card → String) (cards : List Card) : List Card :=
  cards.map (fun cd => ⟨cd.colour, cd.number, g cd⟩)

/-- A hand on which the run-streak walk leaves the 1..12 range: cards
10, 11, 12, one wildcard, and six 1s. -/
def overrunHand : List Card :=
  [⟨"green", 10, "normal"⟩, ⟨"green", 11, "normal"⟩, ⟨"green", 12, "normal"⟩,
   ⟨"black", -1, "joker"⟩, ⟨"yellow", 1, "normal"⟩, ⟨"yellow", 1, "normal"⟩,
   ⟨"yellow", 1, "normal"⟩, ⟨"yellow", 1, "normal"⟩, ⟨"yellow", 1, "normal"⟩,
   ⟨"yellow", 1, "normal"⟩]

/-- blue1, blue2, a BLUE wildcard, then seven green 8s. -/
def wildBlueHand : List Card :=
  [⟨"blue", 1, "normal"⟩, ⟨"blue", 2, "normal"⟩, ⟨"blue", -1, "normal"⟩,
   ⟨"green", 8, "normal"⟩, ⟨"green", 8, "normal"⟩, ⟨"green", 8, "normal"⟩,
   ⟨"green", 8, "normal"⟩, ⟨"green", 8, "normal"⟩, ⟨"green", 8, "normal"⟩,
   ⟨"green", 8, "normal"⟩]

/-- The same hand with the wildcard's colour changed to black (numbers,
and in particular the wildcard sentinel `-1`, unchanged). -/
def wildBlackHand : List Card :=
  [⟨"blue", 1, "normal"⟩, ⟨"blue", 2, "normal"⟩, ⟨"black", -1, "normal"⟩,
   ⟨"green", 8, "normal"⟩, ⟨"green", 8, "normal"⟩, ⟨"green", 8, "normal"⟩,
   ⟨"green", 8, "normal"⟩, ⟨"green", 8, "normal"⟩, ⟨"green", 8, "normal"⟩,
   ⟨"green", 8, "normal"⟩]

theorem mem_insortNat {a b : ℕ} {l : List ℕ} :
    a ∈ insortNat b l ↔ a = b ∨ a ∈ l := by
  induction l with
  | nil => simp [insortNat]
  | cons c t ih =>
    by_cases h : b ≤ c <;> simp [insortNat, h, ih] <;> tauto

theorem mem_finsetAsc {a : ℕ} {s : Finset ℕ} :
    a ∈ finsetAsc s ↔ a ∈ s := by
  show a ∈ Multiset.foldr insortNat [] s.val ↔ a ∈ s
  rw [Finset.mem_def]
  induction s.val using Multiset.induction_on with
  | empty => simp [Multiset.foldr_zero]
  | cons b m ih => rw [Multiset.foldr_cons, mem_insortNat, ih]; simp

theorem hand_passed_iff (c : Cond) (cards : List Card) :
    hand_passed c cards = true ↔ 0 < (possibilities c cards).length := by
  simp [hand_passed]

/-- Claim C8: for every condition type and every hand, `hand_passed` is
true iff `possibilities` returns a list of positive length; the
derivation lives once on the shared base (`hand_passed` is defined for
the whole `Cond` sum type and no variant overrides it). -/
theorem passed_derived_uniformly (c : Cond) (cards : List Card) :
    hand_passed c cards = true ↔ 0 < (possibilities c cards).length :=
  hand_passed_iff c cards

/-- Claim C9: Hand construction fails (with the "Invalid number of
cards" error the spec calls InvalidHandSize) iff the card list's length
differs from 10, and a 10-card list always constructs successfully;
`handInit` performs this check by itself, before any condition logic. -/
theorem hand_size_validation (cards : List Card) :
    ((∃ e, handInit cards = Except.error e) ↔ cards.length ≠ 10) ∧
    (cards.length = 10 → handInit cards = Except.ok cards) := by
  by_cases h : cards.length = 10
  · have h' : ¬ (cards.length < 10 ∨ 10 < cards.length) := by omega
    simp [handInit, h', h]
  · have h' : (cards.length < 10 ∨ 10 < cards.length) := by omega
    simp [handInit, h', h]

/-- Claim C5 counterexample: constructing a condition with
requiredNumber 11 (or -3), far outside [1,10], does NOT fail —
`Condition.__init__` contains no validation at all, so no
InvalidRequiredNumber error is raised at construction time. -/
theorem required_number_not_validated :
    conditionInit 11 [] = Except.ok (11, []) ∧
    conditionInit (-3) [] = Except.ok (-3, []) := ⟨rfl, rfl⟩

/-- Claim C5 (amended): condition construction never fails for ANY
requiredNumber: the code performs no requiredNumber validation at
construction, and no InvalidRequiredNumber error exists to be raised at
construction or at evaluation time. -/
theorem conditionInit_never_fails (required_number : ℤ) (subs : List Cond) :
    conditionInit required_number subs = Except.ok (required_number, subs) := rfl

/-- Claim C6: on the repository's worked example hand
[blue1, blue2, blue3, red4, red5, red6, red6, wild, wild, wild],
`GroupCondition([SameColourList(3), SameColour(4)]).hand_passed` is true,
i.e. its possibility list is non-empty. -/
theorem worked_example_passes :
    hand_passed (.group [.sameColourList 3, .sameColour 4]) testHand = true ∧
    possibilities (.group [.sameColourList 3, .sameColour 4]) testHand ≠ [] := by
  have h : hand_passed (.group [.sameColourList 3, .sameColour 4]) testHand = true := by
    simp only [hand_passed, possibilities, possList]
    decide
  refine ⟨h, ?_⟩
  have := (hand_passed_iff _ testHand).mp h
  exact List.ne_nil_of_length_pos this

theorem nodup_split_parts {L : List ℕ} {i : ℕ} (hi : i < L.length) (hnd : L.Nodup) :
    L[i] ∉ L.take i ∧ L[i] ∉ L.drop (i+1) ∧ ∀ x ∈ L.take i, x ∉ L.drop (i+1) := by
  have h1 : (L.take i ++ L.drop i).Nodup := by
    rw [List.take_append_drop]
    exact hnd
  rw [List.nodup_append] at h1
  obtain ⟨hta, hdr, hdisj⟩ := h1
  rw [List.drop_eq_getElem_cons hi] at hdr hdisj
  refine ⟨fun h => hdisj h (List.mem_cons_self _ _), (List.nodup_cons.mp hdr).1,
    fun x hx hd => hdisj hx (List.mem_cons_of_mem _ hd)⟩

theorem toFinset_split {L : List ℕ} {i : ℕ} (hi : i < L.length) :
    L.toFinset = (L.take i).toFinset ∪ {L[i]} ∪ (L.drop (i+1)).toFinset := by
  conv_lhs => rw [← List.take_append_drop i L, List.drop_eq_getElem_cons hi]
  rw [List.toFinset_append, List.toFinset_cons, Finset.insert_eq, Finset.union_assoc]

theorem toFinset_eraseIdx {L : List ℕ} (i : ℕ) :
    (L.eraseIdx i).toFinset = (L.take i).toFinset ∪ (L.drop (i+1)).toFinset := by
  rw [List.eraseIdx_eq_take_drop_succ, List.toFinset_append]

theorem mem_take_of_lt {L : List ℕ} {j r : ℕ} (hj : j < r) (hr : r ≤ L.length)
    (h : j < L.length) : L[j] ∈ L.take r := by
  have hjl : j < (L.take r).length := by
    rw [List.length_take]
    omega
  have := List.getElem_take L (j := r) (i := j) (h := hjl)
  rw [← this]
  exact List.getElem_mem _

theorem mem_drop_of_le {L : List ℕ} {j r : ℕ} (hj : r ≤ j) (h : j < L.length) :
    L[j] ∈ L.drop r := by
  obtain ⟨d, rfl⟩ : ∃ d, j = r + d := ⟨j - r, by omega⟩
  have hb : d < (L.drop r).length := by
    rw [List.length_drop]
    omega
  have h2 := List.getElem_drop L (i := r) (j := d) (h := hb)
  rw [← h2]
  exact List.getElem_mem _

theorem union_cancel_of_disjoint {A B pfx U : Finset ℕ}
    (hA : A ⊆ U) (hB : B ⊆ U) (hd : Disjoint pfx U) (h : A ∪ pfx = B ∪ pfx) :
    A = B := by
  ext x
  constructor
  · intro hx
    have hx2 : x ∈ B ∪ pfx := h ▸ (Finset.mem_union_left _ hx)
    rcases Finset.mem_union.mp hx2 with h' | h'
    · exact h'
    · exact absurd (hA hx) (Finset.disjoint_left.mp hd h')
  · intro hx
    have hx2 : x ∈ A ∪ pfx := h.symm ▸ (Finset.mem_union_left _ hx)
    rcases Finset.mem_union.mp hx2 with h' | h'
    · exact h'
    · exact absurd (hB hx) (Finset.disjoint_left.mp hd h')

theorem ip_shape : ∀ (levels : ℕ), 1 ≤ levels → ∀ (pfx : Finset ℕ) (L : List ℕ),
    levels ≤ L.length → L.Nodup → (∀ x ∈ pfx, x ∉ L) →
    ∀ S ∈ internal_possibilities pfx L levels,
    ∃ T : Finset ℕ, T ⊆ L.toFinset ∧ T.card = L.length - levels ∧ S = pfx ∪ T
  | 1, _ => by
    intro pfx L hlen hnd hdisj S hS
    simp only [internal_possibilities, List.mem_map, List.mem_range] at hS
    obtain ⟨rem, hrem, rfl⟩ := hS
    refine ⟨(L.eraseIdx rem).toFinset, ?_, ?_, Finset.union_comm _ _⟩
    · intro x hx
      rw [List.mem_toFinset] at hx ⊢
      exact (List.eraseIdx_sublist L rem).subset hx
    · rw [List.toFinset_card_of_nodup ((List.eraseIdx_sublist L rem).nodup hnd),
        List.length_eraseIdx]
      simp [hrem]
  | (n+2), _ => by
    intro pfx L hlen hnd hdisj S hS
    simp only [internal_possibilities, List.mem_map, List.mem_flatten,
      List.mem_range] at hS
    obtain ⟨S', ⟨chl, ⟨⟨rem, hrem, rfl⟩, hS'chl⟩⟩, rfl⟩ := hS
    have hremL : rem + (n+2) ≤ L.length := by omega
    have hdl : (L.drop (rem+1)).length = L.length - (rem+1) := List.length_drop _ _
    have hnd' : (L.drop (rem+1)).Nodup := (List.drop_sublist _ _).nodup hnd
    have hdisj' : ∀ x ∈ (L.take rem).toFinset, x ∉ L.drop (rem+1) := by
      intro x hx
      rw [List.mem_toFinset] at hx
      exact (nodup_split_parts (show rem < L.length by omega) hnd).2.2 x hx
    obtain ⟨T', hT'sub, hT'card, rfl⟩ :=
      ip_shape (n+1) (by omega) (L.take rem).toFinset (L.drop (rem+1))
        (by omega) hnd' hdisj' S' hS'chl
    refine ⟨(L.take rem).toFinset ∪ T', ?_, ?_, ?_⟩
    · intro x hx
      rcases Finset.mem_union.mp hx with h | h
      · rw [List.mem_toFinset] at h ⊢
        exact (List.take_sublist _ _).subset h
      · have h2 := hT'sub h
        rw [List.mem_toFinset] at h2 ⊢
        exact (List.drop_sublist _ _).subset h2
    · have hdisjTT : Disjoint (L.take rem).toFinset T' := by
        rw [Finset.disjoint_left]
        intro x hx hxT'
        have hxd := hT'sub hxT'
        rw [List.mem_toFinset] at hxd
        exact hdisj' x hx hxd
      rw [Finset.card_union_of_disjoint hdisjTT,
        List.toFinset_card_of_nodup ((List.take_sublist _ _).nodup hnd),
        List.length_take]
      rw [hdl] at hT'card
      have hmin : rem ⊓ L.length = rem := min_eq_left (by omega)
      omega
    · rw [Finset.union_comm]

theorem findIdx_min_spec {L : List ℕ} (hnd : L.Nodup) {R : Finset ℕ}
    (hRsub : R ⊆ L.toFinset) (hR : R.Nonempty) :
    ∃ i, ∃ (hi : i < L.length), L[i] ∈ R ∧
      (∀ x ∈ R, x ≠ L[i] → x ∈ L.drop (i+1)) ∧
      (∀ x ∈ L.take i, x ∉ R) ∧ i + R.card ≤ L.length := by
  obtain ⟨x0, hx0⟩ := hR
  have hx0L : x0 ∈ L := by
    have := hRsub hx0
    rwa [List.mem_toFinset] at this
  have hex : ∃ x ∈ L, (fun x => decide (x ∈ R)) x = true := ⟨x0, hx0L, by simpa⟩
  set i := L.findIdx (fun x => decide (x ∈ R)) with hidef
  have hi : i < L.length := List.findIdx_lt_length_of_exists hex
  have hmem : L[i] ∈ R := by
    have := @List.findIdx_getElem _ (fun x => decide (x ∈ R)) L hi
    simpa using this
  have hmin : ∀ j, j < i → (hj : j < L.length) → L[j] ∉ R := by
    intro j hj hjL
    have := @List.not_of_lt_findIdx _ (fun x => decide (x ∈ R)) L j hj
    simpa using this
  have htake : ∀ x ∈ L.take i, x ∉ R := by
    intro x hx
    obtain ⟨j, hjlen, hjeq⟩ := List.mem_iff_getElem.mp hx
    have hjlt : j < i := by
      have := hjlen
      rw [List.length_take] at this
      omega
    have hjL : j < L.length := by omega
    have : (L.take i)[j] = L[j] := List.getElem_take L (j := i) (i := j) (h := hjlen)
    rw [this] at hjeq
    rw [← hjeq]
    exact hmin j hjlt hjL
  have hdropR : ∀ x ∈ R, x ≠ L[i] → x ∈ L.drop (i+1) := by
    intro x hxR hxne
    have hxL : x ∈ L := by
      have := hRsub hxR
      rwa [List.mem_toFinset] at this
    obtain ⟨j, hjL, hjeq⟩ := List.mem_iff_getElem.mp hxL
    rcases Nat.lt_trichotomy j i with h | h | h
    · exact absurd (hjeq ▸ hxR) (hmin j h hjL)
    · subst h
      exact absurd hjeq.symm hxne
    · exact hjeq ▸ mem_drop_of_le (show i + 1 ≤ j by omega) hjL
  have hcount : i + R.card ≤ L.length := by
    have hsub : R ⊆ (L.drop i).toFinset := by
      intro x hxR
      rw [List.mem_toFinset]
      by_cases hxe : x = L[i]
      · exact hxe ▸ mem_drop_of_le (le_refl i) hi
      · have := hdropR x hxR hxe
        have hsub2 : L.drop (i+1) = (L.drop i).drop 1 := by
          rw [List.drop_drop]
        rw [hsub2] at this
        exact (List.drop_sublist _ _).subset this
    have h1 := Finset.card_le_card hsub
    have h2 : (L.drop i).toFinset.card = L.length - i :=
      by rw [List.toFinset_card_of_nodup ((List.drop_sublist _ _).nodup hnd),
        List.length_drop]
    omega
  exact ⟨i, hi, hmem, hdropR, htake, hcount⟩

theorem ip_complete : ∀ (levels : ℕ), 1 ≤ levels → ∀ (pfx : Finset ℕ) (L : List ℕ),
    levels ≤ L.length → L.Nodup →
    ∀ T : Finset ℕ, T ⊆ L.toFinset → T.card = L.length - levels →
    pfx ∪ T ∈ internal_possibilities pfx L levels
  | 1, _ => by
    intro pfx L hlen hnd T hTsub hTcard
    have hLcard : L.toFinset.card = L.length := List.toFinset_card_of_nodup hnd
    have hRcard : (L.toFinset \ T).card = 1 := by
      rw [Finset.card_sdiff hTsub, hLcard, hTcard]
      omega
    have hRne : (L.toFinset \ T).Nonempty := by
      rw [← Finset.card_pos, hRcard]
      omega
    obtain ⟨i, hi, hmemR, hdrop, htake, hcount⟩ :=
      findIdx_min_spec hnd Finset.sdiff_subset hRne
    simp only [internal_possibilities, List.mem_map, List.mem_range]
    refine ⟨i, hi, ?_⟩
    have hT : (L.eraseIdx i).toFinset = T := by
      rw [toFinset_eraseIdx]
      have hTeq : T = L.toFinset \ (L.toFinset \ T) :=
        (Finset.sdiff_sdiff_eq_self hTsub).symm
      obtain ⟨x0, hx0⟩ := Finset.card_eq_one.mp hRcard
      have hLi : L[i] = x0 := by
        have h2 := hmemR
        rw [hx0] at h2
        simpa using h2
      obtain ⟨h1, h2, h3⟩ := nodup_split_parts hi hnd
      rw [hTeq, hx0, ← hLi]
      conv_rhs => rw [toFinset_split hi]
      ext x
      simp only [Finset.mem_union, Finset.mem_sdiff, Finset.mem_singleton,
        List.mem_toFinset]
      constructor
      · rintro (hx | hx)
        · exact ⟨Or.inl (Or.inl hx), fun he => h1 (he ▸ hx)⟩
        · exact ⟨Or.inr hx, fun he => h2 (he ▸ hx)⟩
      · rintro ⟨(hx | hx) | hx, hne⟩
        · exact Or.inl hx
        · exact absurd hx hne
        · exact Or.inr hx
    rw [hT, Finset.union_comm]
  | (n+2), _ => by
    intro pfx L hlen hnd T hTsub hTcard
    have hLcard : L.toFinset.card = L.length := List.toFinset_card_of_nodup hnd
    have hRcard : (L.toFinset \ T).card = n+2 := by
      rw [Finset.card_sdiff hTsub, hLcard, hTcard]
      omega
    have hRne : (L.toFinset \ T).Nonempty := by
      rw [← Finset.card_pos, hRcard]
      omega
    obtain ⟨i, hi, hmemR, hdrop, htake, hcount⟩ :=
      findIdx_min_spec hnd Finset.sdiff_subset hRne
    rw [hRcard] at hcount
    have hiB : i < L.length + 1 - (n+2) := by omega
    have hR'card : ((L.toFinset \ T).erase L[i]).card = n+1 := by
      rw [Finset.card_erase_of_mem hmemR, hRcard]
      omega
    have hR'sub : ((L.toFinset \ T).erase L[i]) ⊆ (L.drop (i+1)).toFinset := by
      intro x hx
      rw [List.mem_toFinset]
      exact hdrop x (Finset.mem_of_mem_erase hx) (Finset.ne_of_mem_erase hx)
    have hdl : (L.drop (i+1)).length = L.length - (i+1) := List.length_drop _ _
    have hnd' : (L.drop (i+1)).Nodup := (List.drop_sublist _ _).nodup hnd
    have hd'card : (L.drop (i+1)).toFinset.card = L.length - (i+1) := by
      rw [List.toFinset_card_of_nodup hnd', hdl]
    have hT''card :
        ((L.drop (i+1)).toFinset \ ((L.toFinset \ T).erase L[i])).card
          = (L.drop (i+1)).length - (n+1) := by
      rw [Finset.card_sdiff hR'sub, hd'card, hR'card, hdl]
    have hchild := ip_complete (n+1) (by omega) (L.take i).toFinset (L.drop (i+1))
      (by rw [hdl]; omega) hnd'
      ((L.drop (i+1)).toFinset \ ((L.toFinset \ T).erase L[i]))
      Finset.sdiff_subset hT''card
    have hTdecomp : T = (L.take i).toFinset ∪
        ((L.drop (i+1)).toFinset \ ((L.toFinset \ T).erase L[i])) := by
      obtain ⟨h1, h2, h3⟩ := nodup_split_parts hi hnd
      ext x
      constructor
      · intro hxT
        have hxL : x ∈ L := by
          have := hTsub hxT
          rwa [List.mem_toFinset] at this
        rw [Finset.mem_union]
        obtain ⟨j, hjL, hjeq⟩ := List.mem_iff_getElem.mp hxL
        rcases Nat.lt_trichotomy j i with hj | hj | hj
        · left
          rw [List.mem_toFinset]
          exact hjeq ▸ mem_take_of_lt hj (le_of_lt hi) hjL
        · exfalso
          subst hj
          rw [hjeq] at hmemR
          exact (Finset.mem_sdiff.mp hmemR).2 hxT
        · right
          rw [Finset.mem_sdiff]
          constructor
          · rw [List.mem_toFinset]
            exact hjeq ▸ mem_drop_of_le (by omega) hjL
          · intro hxR'
            exact (Finset.mem_sdiff.mp (Finset.mem_of_mem_erase hxR')).2 hxT
      · intro hx
        rcases Finset.mem_union.mp hx with hx | hx
        · rw [List.mem_toFinset] at hx
          have hxL : x ∈ L := (List.take_sublist _ _).subset hx
          by_contra hxT
          exact htake x hx (Finset.mem_sdiff.mpr ⟨List.mem_toFinset.mpr hxL, hxT⟩)
        · rw [Finset.mem_sdiff] at hx
          obtain ⟨hxd, hxnR2⟩ := hx
          rw [List.mem_toFinset] at hxd
          have hxL : x ∈ L := (List.drop_sublist _ _).subset hxd
          by_contra hxT
          have hxR : x ∈ L.toFinset \ T :=
            Finset.mem_sdiff.mpr ⟨List.mem_toFinset.mpr hxL, hxT⟩
          have hxne : x ≠ L[i] := fun he => h2 (he ▸ hxd)
          exact hxnR2 (Finset.mem_erase.mpr ⟨hxne, hxR⟩)
    simp only [internal_possibilities, List.mem_map, List.mem_flatten, List.mem_range]
    exact ⟨(L.take i).toFinset ∪
        ((L.drop (i+1)).toFinset \ ((L.toFinset \ T).erase L[i])),
      ⟨internal_possibilities (L.take i).toFinset (L.drop (i+1)) (n+1),
        ⟨⟨i, hiB, rfl⟩, hchild⟩⟩,
      by rw [← hTdecomp, Finset.union_comm]⟩

theorem mem_eraseIdx_toFinset_of_ne {L : List ℕ} (hnd : L.Nodup) {r j : ℕ}
    (hr : r < L.length) (hj : j < L.length) (hne : j ≠ r) :
    L[j] ∈ (L.eraseIdx r).toFinset := by
  rw [toFinset_eraseIdx, Finset.mem_union, List.mem_toFinset, List.mem_toFinset]
  rcases Nat.lt_or_ge j r with h | h
  · exact Or.inl (mem_take_of_lt h (le_of_lt hr) hj)
  · exact Or.inr (mem_drop_of_le (by omega) hj)

theorem not_mem_eraseIdx_toFinset {L : List ℕ} (hnd : L.Nodup) {r : ℕ}
    (hr : r < L.length) : L[r] ∉ (L.eraseIdx r).toFinset := by
  obtain ⟨h1, h2, _⟩ := nodup_split_parts hr hnd
  rw [toFinset_eraseIdx, Finset.mem_union, List.mem_toFinset, List.mem_toFinset]
  rintro (h | h)
  · exact h1 h
  · exact h2 h

theorem ip_nodup : ∀ (levels : ℕ), 1 ≤ levels → ∀ (pfx : Finset ℕ) (L : List ℕ),
    levels ≤ L.length → L.Nodup → (∀ x ∈ pfx, x ∉ L) →
    (internal_possibilities pfx L levels).Nodup
  | 1, _ => by
    intro pfx L hlen hnd hdisj
    show ((List.range L.length).map
      (fun rem => (L.eraseIdx rem).toFinset ∪ pfx)).Nodup
    refine List.Nodup.map_on ?_ (List.nodup_range _)
    intro r1 h1 r2 h2 heq
    rw [List.mem_range] at h1 h2
    by_contra hne
    have hmem1 : L[r2] ∈ (L.eraseIdx r1).toFinset ∪ pfx := by
      rw [Finset.mem_union]
      exact Or.inl (mem_eraseIdx_toFinset_of_ne hnd h1 h2 (fun h => hne h.symm))
    rw [heq, Finset.mem_union] at hmem1
    rcases hmem1 with h | h
    · exact not_mem_eraseIdx_toFinset hnd h2 h
    · exact hdisj _ h (List.getElem_mem h2)
  | (n+2), _ => by
    intro pfx L hlen hnd hdisj
    show ((((List.range (L.length + 1 - (n+2))).map (fun rem =>
        internal_possibilities (L.take rem).toFinset
          (L.drop (rem+1)) (n+1))).flatten).map (fun s => s ∪ pfx)).Nodup
    have hshape : ∀ rem, ∀ (hremL : rem < L.length), rem < L.length + 1 - (n+2) →
        ∀ S ∈ internal_possibilities (L.take rem).toFinset (L.drop (rem+1)) (n+1),
        ((L.take rem).toFinset ⊆ S ∧ S ⊆ L.toFinset ∧ L[rem] ∉ S) := by
      intro rem hremL hrem S hS
      have hnd' : (L.drop (rem+1)).Nodup := (List.drop_sublist _ _).nodup hnd
      obtain ⟨hp1, hp2, hp3⟩ := nodup_split_parts hremL hnd
      have hdisj' : ∀ x ∈ (L.take rem).toFinset, x ∉ L.drop (rem+1) := by
        intro x hx
        rw [List.mem_toFinset] at hx
        exact hp3 x hx
      obtain ⟨T', hT'sub, hT'card, rfl⟩ := ip_shape (n+1) (by omega) _ _
        (by rw [List.length_drop]; omega) hnd' hdisj' S hS
      refine ⟨Finset.subset_union_left, ?_, ?_⟩
      · intro x hx
        rcases Finset.mem_union.mp hx with h | h
        · rw [List.mem_toFinset] at h ⊢
          exact (List.take_sublist _ _).subset h
        · have h2 := hT'sub h
          rw [List.mem_toFinset] at h2 ⊢
          exact (List.drop_sublist _ _).subset h2
      · intro hmem
        rcases Finset.mem_union.mp hmem with h | h
        · rw [List.mem_toFinset] at h
          exact hp1 h
        · have h2 := hT'sub h
          rw [List.mem_toFinset] at h2
          exact hp2 h2
    have hflat : (((List.range (L.length + 1 - (n+2))).map (fun rem =>
        internal_possibilities (L.take rem).toFinset
          (L.drop (rem+1)) (n+1))).flatten).Nodup := by
      rw [List.nodup_flatten]
      constructor
      · intro l hl
        rw [List.mem_map] at hl
        obtain ⟨rem, hrem, rfl⟩ := hl
        rw [List.mem_range] at hrem
        have hremL : rem < L.length := by omega
        have hnd' : (L.drop (rem+1)).Nodup := (List.drop_sublist _ _).nodup hnd
        have hdisj' : ∀ x ∈ (L.take rem).toFinset, x ∉ L.drop (rem+1) := by
          intro x hx
          rw [List.mem_toFinset] at hx
          exact (nodup_split_parts hremL hnd).2.2 x hx
        exact ip_nodup (n+1) (by omega) _ _ (by rw [List.length_drop]; omega)
          hnd' hdisj'
      · rw [List.pairwise_map]
        refine List.Pairwise.imp_of_mem ?_ (List.pairwise_lt_range _)
        intro r1 r2 h1 h2 hlt S hS1 hS2
        rw [List.mem_range] at h1 h2
        obtain ⟨hsub1, hsubL1, hnot1⟩ := hshape r1 (by omega) h1 S hS1
        obtain ⟨hsub2, hsubL2, hnot2⟩ := hshape r2 (by omega) h2 S hS2
        apply hnot1
        apply hsub2
        rw [List.mem_toFinset]
        exact mem_take_of_lt hlt (by omega) (by omega)
    refine List.Nodup.map_on ?_ hflat
    intro S1 hS1 S2 hS2 heq
    rw [List.mem_flatten] at hS1 hS2
    obtain ⟨l1, hl1, hS1m⟩ := hS1
    obtain ⟨l2, hl2, hS2m⟩ := hS2
    rw [List.mem_map] at hl1 hl2
    obtain ⟨r1, hr1, rfl⟩ := hl1
    obtain ⟨r2, hr2, rfl⟩ := hl2
    rw [List.mem_range] at hr1 hr2
    obtain ⟨_, hsubL1, _⟩ := hshape r1 (by omega) hr1 S1 hS1m
    obtain ⟨_, hsubL2, _⟩ := hshape r2 (by omega) hr2 S2 hS2m
    exact union_cancel_of_disjoint hsubL1 hsubL2
      (by
        rw [Finset.disjoint_left]
        intro a ha haL
        rw [List.mem_toFinset] at haL
        exact hdisj a ha haL) heq

theorem ip_toFinset (levels : ℕ) (hlev : 1 ≤ levels) (pfx : Finset ℕ) (L : List ℕ)
    (hlen : levels ≤ L.length) (hnd : L.Nodup) (hdisj : ∀ x ∈ pfx, x ∉ L) :
    (internal_possibilities pfx L levels).toFinset =
      (Finset.powersetCard (L.length - levels) L.toFinset).image
        (fun T => pfx ∪ T) := by
  ext S
  rw [List.mem_toFinset, Finset.mem_image]
  constructor
  · intro hS
    obtain ⟨T, hsub, hcard, rfl⟩ := ip_shape levels hlev pfx L hlen hnd hdisj S hS
    exact ⟨T, Finset.mem_powersetCard.mpr ⟨hsub, hcard⟩, rfl⟩
  · rintro ⟨T, hT, rfl⟩
    obtain ⟨hsub, hcard⟩ := Finset.mem_powersetCard.mp hT
    exact ip_complete levels hlev pfx L hlen hnd T hsub hcard

theorem ip_length (levels : ℕ) (hlev : 1 ≤ levels) (pfx : Finset ℕ) (L : List ℕ)
    (hlen : levels ≤ L.length) (hnd : L.Nodup) (hdisj : ∀ x ∈ pfx, x ∉ L) :
    (internal_possibilities pfx L levels).length = Nat.choose L.length levels := by
  have hnodup := ip_nodup levels hlev pfx L hlen hnd hdisj
  have hc := congrArg Finset.card (ip_toFinset levels hlev pfx L hlen hnd hdisj)
  rw [List.toFinset_card_of_nodup hnodup] at hc
  have hinj : Set.InjOn (fun T => pfx ∪ T)
      ↑(Finset.powersetCard (L.length - levels) L.toFinset) := by
    intro T1 h1 T2 h2 heq
    rw [Finset.mem_coe, Finset.mem_powersetCard] at h1 h2
    have hd : Disjoint pfx L.toFinset := by
      rw [Finset.disjoint_left]
      intro a ha haL
      rw [List.mem_toFinset] at haL
      exact hdisj a ha haL
    have heq2 : T1 ∪ pfx = T2 ∪ pfx := by
      rw [Finset.union_comm T1, Finset.union_comm T2]
      exact heq
    exact union_cancel_of_disjoint h1.1 h2.1 hd heq2
  rw [hc, Finset.card_image_of_injOn hinj, Finset.card_powersetCard,
    List.toFinset_card_of_nodup hnd, Nat.choose_symm hlen]

theorem find_matches_spec (cards : List Card) (n : ℤ) (k : ℕ) :
    (find_matches_number k cards n).length =
      Nat.choose (matchesByNumber cards n).length k ∧
    (find_matches_number k cards n).Nodup ∧
    (find_matches_number k cards n).toFinset =
      Finset.powersetCard k (matchesByNumber cards n).toFinset := by
  have hMnd : (matchesByNumber cards n).Nodup :=
    (List.nodup_range _).filter _
  have hMcard : (matchesByNumber cards n).toFinset.card
      = (matchesByNumber cards n).length := List.toFinset_card_of_nodup hMnd
  unfold find_matches_number
  by_cases hlt : (matchesByNumber cards n).length < k
  · simp only [if_pos hlt]
    refine ⟨(Nat.choose_eq_zero_of_lt hlt).symm, List.nodup_nil, ?_⟩
    rw [List.toFinset_nil]
    symm
    rw [Finset.powersetCard_eq_empty]
    omega
  · simp only [if_neg hlt]
    by_cases heq : (matchesByNumber cards n).length = k
    · simp only [if_pos heq]
      refine ⟨by simp [heq, Nat.choose_self], by simp, ?_⟩
      rw [← heq, ← hMcard, Finset.powersetCard_self]
      simp
    · simp only [if_neg heq]
      have hgt : k < (matchesByNumber cards n).length := by omega
      have hlev : 1 ≤ (matchesByNumber cards n).length - k := by omega
      have hlenle : (matchesByNumber cards n).length - k
          ≤ (matchesByNumber cards n).length := by omega
      have hdisj : ∀ x ∈ (∅ : Finset ℕ), x ∉ matchesByNumber cards n := by simp
      refine ⟨?_, ip_nodup _ hlev _ _ hlenle hMnd hdisj, ?_⟩
      · rw [ip_length _ hlev _ _ hlenle hMnd hdisj,
          Nat.choose_symm (le_of_lt hgt)]
      · rw [ip_toFinset _ hlev _ _ hlenle hMnd hdisj]
        have hsub : (matchesByNumber cards n).length
            - ((matchesByNumber cards n).length - k) = k := by omega
        rw [hsub]
        ext S
        rw [Finset.mem_image]
        constructor
        · rintro ⟨T, hT, rfl⟩
          simpa using hT
        · intro hS
          exact ⟨S, hS, by simp⟩

/-- Claim C1: for every 10-card hand and required count k in [1,10],
SameNumber.find_matches
returns exactly the choose(m, k) distinct position sets of size k drawn
from the m matching positions (cards of that number plus wildcards):
its length is C(m,k) (so 0 when m < k), it contains no duplicates, and
as a set of sets it is exactly the choose-k powerset of the matches. -/
theorem set_condition_choose (cards : List Card) (n : ℤ) (k : ℕ)
    (h1 : 1 ≤ k) (h10 : k ≤ 10) (hlen : cards.length = 10) :
    (find_matches_number k cards n).length =
      Nat.choose (matchesByNumber cards n).length k ∧
    (find_matches_number k cards n).Nodup ∧
    (find_matches_number k cards n).toFinset =
      Finset.powersetCard k (matchesByNumber cards n).toFinset :=
  find_matches_spec cards n k

theorem set_condition_choose_witness :
    (1 ≤ 2 ∧ 2 ≤ 10 ∧ testHand.length = 10) ∧
    ((find_matches_number 2 testHand 6).length =
      Nat.choose (matchesByNumber testHand 6).length 2 ∧
    (find_matches_number 2 testHand 6).Nodup ∧
    (find_matches_number 2 testHand 6).toFinset =
      Finset.powersetCard 2 (matchesByNumber testHand 6).toFinset) :=
  ⟨by decide, set_condition_choose testHand 6 2 (by decide) (by decide) (by decide)⟩

def unionAll (l : List (Finset ℕ)) : Finset ℕ := l.foldr (· ∪ ·) ∅

theorem unionAll_nil : unionAll [] = ∅ := rfl

theorem unionAll_cons (b : Finset ℕ) (l : List (Finset ℕ)) :
    unionAll (b :: l) = b ∪ unionAll l := rfl

theorem groupStep_mem (acc bs : List (Finset ℕ)) (S : Finset ℕ) :
    S ∈ groupStep acc bs ↔
      ∃ a ∈ acc, ∃ b ∈ bs, Disjoint a b ∧ S = a ∪ b := by
  simp only [groupStep, List.mem_flatten, List.mem_map]
  constructor
  · rintro ⟨l, ⟨a, ha, rfl⟩, hmem⟩
    rw [List.mem_map] at hmem
    obtain ⟨b, hb, rfl⟩ := hmem
    rw [List.mem_filter, decide_eq_true_eq] at hb
    exact ⟨a, ha, b, hb.1, Finset.disjoint_iff_inter_eq_empty.mpr hb.2, rfl⟩
  · rintro ⟨a, ha, b, hb, hab, rfl⟩
    refine ⟨(bs.filter (fun b => decide (a ∩ b = ∅))).map (fun b => a ∪ b),
      ⟨a, ha, rfl⟩, ?_⟩
    rw [List.mem_map]
    refine ⟨b, ?_, rfl⟩
    rw [List.mem_filter, decide_eq_true_eq]
    exact ⟨hb, Finset.disjoint_iff_inter_eq_empty.mp hab⟩

theorem foldl_groupStep_mem : ∀ (Ps : List (List (Finset ℕ)))
    (acc : List (Finset ℕ)) (S : Finset ℕ),
    S ∈ Ps.foldl groupStep acc ↔
      ∃ a ∈ acc, ∃ sel : List (Finset ℕ),
        List.Forall₂ (· ∈ ·) sel Ps ∧
        sel.Pairwise (fun x y => Disjoint x y) ∧
        (∀ x ∈ sel, Disjoint a x) ∧ S = a ∪ unionAll sel
  | [], acc, S => by
    simp only [List.foldl_nil]
    constructor
    · intro hS
      exact ⟨S, hS, [], List.Forall₂.nil, List.Pairwise.nil, by simp,
        by simp [unionAll_nil]⟩
    · rintro ⟨a, ha, sel, hfa, _, _, rfl⟩
      rw [List.forall₂_nil_right_iff] at hfa
      subst hfa
      simpa [unionAll_nil] using ha
  | P :: Ps, acc, S => by
    rw [List.foldl_cons, foldl_groupStep_mem Ps (groupStep acc P) S]
    constructor
    · rintro ⟨a', ha', sel', hfa, hpw, hdisj, rfl⟩
      obtain ⟨a, ha, b, hb, hab, rfl⟩ := (groupStep_mem acc P a').mp ha'
      refine ⟨a, ha, b :: sel', List.Forall₂.cons hb hfa, ?_, ?_, ?_⟩
      · rw [List.pairwise_cons]
        exact ⟨fun x hx => ((hdisj x hx).mono_left Finset.subset_union_right), hpw⟩
      · intro x hx
        rcases List.mem_cons.mp hx with rfl | hx
        · exact hab
        · exact (hdisj x hx).mono_left Finset.subset_union_left
      · rw [unionAll_cons, Finset.union_assoc]
    · rintro ⟨a, ha, sel, hfa, hpw, hdisj, rfl⟩
      obtain ⟨b, sel', hb, hfa', rfl⟩ := List.forall₂_cons_right_iff.mp hfa
      rw [List.pairwise_cons] at hpw
      obtain ⟨hbsel, hpw'⟩ := hpw
      refine ⟨a ∪ b, (groupStep_mem acc P (a ∪ b)).mpr
        ⟨a, ha, b, hb, hdisj b (List.mem_cons_self _ _), rfl⟩,
        sel', hfa', hpw', ?_, ?_⟩
      · intro x hx
        rw [Finset.disjoint_union_left]
        exact ⟨hdisj x (List.mem_cons_of_mem _ hx), hbsel x hx⟩
      · rw [unionAll_cons, Finset.union_assoc]

theorem groupPossibilities_mem (Ps : List (List (Finset ℕ))) (S : Finset ℕ) :
    S ∈ groupPossibilities Ps ↔
      Ps ≠ [] ∧ ∃ sel : List (Finset ℕ),
        List.Forall₂ (· ∈ ·) sel Ps ∧
        sel.Pairwise (fun x y => Disjoint x y) ∧ S = unionAll sel := by
  cases Ps with
  | nil => simp [groupPossibilities]
  | cons P Ps =>
    show S ∈ Ps.foldl groupStep P ↔ _
    rw [foldl_groupStep_mem]
    constructor
    · rintro ⟨a, ha, sel, hfa, hpw, hdisj, rfl⟩
      refine ⟨List.cons_ne_nil _ _, a :: sel, List.Forall₂.cons ha hfa, ?_,
        by rw [unionAll_cons]⟩
      rw [List.pairwise_cons]
      exact ⟨hdisj, hpw⟩
    · rintro ⟨_, sel, hfa, hpw, rfl⟩
      obtain ⟨a, sel', ha, hfa', rfl⟩ := List.forall₂_cons_right_iff.mp hfa
      rw [List.pairwise_cons] at hpw
      exact ⟨a, ha, sel', hfa', hpw.2, hpw.1, by rw [unionAll_cons]⟩

theorem disjoint_unionAll {b : Finset ℕ} {sel : List (Finset ℕ)}
    (h : ∀ x ∈ sel, Disjoint b x) : Disjoint b (unionAll sel) := by
  induction sel with
  | nil => simp [unionAll_nil]
  | cons c t ih =>
    rw [unionAll_cons, Finset.disjoint_union_right]
    exact ⟨h c (List.mem_cons_self _ _), ih (fun x hx => h x (List.mem_cons_of_mem _ hx))⟩

theorem card_unionAll : ∀ {sel : List (Finset ℕ)},
    sel.Pairwise (fun x y => Disjoint x y) →
    (unionAll sel).card = (sel.map Finset.card).sum := by
  intro sel h
  induction sel with
  | nil => simp [unionAll_nil]
  | cons b t ih =>
    rw [List.pairwise_cons] at h
    rw [unionAll_cons, Finset.card_union_of_disjoint (disjoint_unionAll h.1),
      List.map_cons, List.sum_cons, ih h.2]

theorem forall₂_perm {Ps Ps' : List (List (Finset ℕ))} (hp : Ps.Perm Ps') :
    ∀ sel, List.Forall₂ (· ∈ ·) sel Ps →
    ∃ sel', sel.Perm sel' ∧ List.Forall₂ (· ∈ ·) sel' Ps' := by
  induction hp with
  | nil =>
    intro sel hfa
    rw [List.forall₂_nil_right_iff] at hfa
    subst hfa
    exact ⟨[], List.Perm.refl _, List.Forall₂.nil⟩
  | cons x hp ih =>
    intro sel hfa
    obtain ⟨b, sel0, hb, hfa0, rfl⟩ := List.forall₂_cons_right_iff.mp hfa
    obtain ⟨sel0', hperm, hfa'⟩ := ih sel0 hfa0
    exact ⟨b :: sel0', hperm.cons b, List.Forall₂.cons hb hfa'⟩
  | swap x y l =>
    intro sel hfa
    obtain ⟨b1, sel1, hb1, hfa1, rfl⟩ := List.forall₂_cons_right_iff.mp hfa
    obtain ⟨b2, sel2, hb2, hfa2, rfl⟩ := List.forall₂_cons_right_iff.mp hfa1
    exact ⟨b2 :: b1 :: sel2, List.Perm.swap b2 b1 sel2,
      List.Forall₂.cons hb2 (List.Forall₂.cons hb1 hfa2)⟩
  | trans hp1 hp2 ih1 ih2 =>
    intro sel hfa
    obtain ⟨sel1, hperm1, hfa1⟩ := ih1 sel hfa
    obtain ⟨sel2, hperm2, hfa2⟩ := ih2 sel1 hfa1
    exact ⟨sel2, hperm1.trans hperm2, hfa2⟩

theorem possList_eq_map (cs : List Cond) (cards : List Card) :
    possList cs cards = cs.map (fun c => possibilities c cards) := by
  induction cs with
  | nil => rfl
  | cons c cs ih => rw [possList, List.map_cons, ih]

theorem group_nonempty_iff (Ps : List (List (Finset ℕ))) :
    groupPossibilities Ps ≠ [] ↔
      Ps ≠ [] ∧ ∃ sel : List (Finset ℕ),
        List.Forall₂ (· ∈ ·) sel Ps ∧
        sel.Pairwise (fun x y => Disjoint x y) := by
  constructor
  · intro h
    obtain ⟨S, hS⟩ := List.exists_mem_of_ne_nil _ h
    obtain ⟨hne, sel, hfa, hpw, _⟩ := (groupPossibilities_mem Ps S).mp hS
    exact ⟨hne, sel, hfa, hpw⟩
  · rintro ⟨hne, sel, hfa, hpw⟩
    have : unionAll sel ∈ groupPossibilities Ps :=
      (groupPossibilities_mem Ps _).mpr ⟨hne, sel, hfa, hpw, rfl⟩
    exact List.ne_nil_of_mem this

theorem group_pass_perm_invariant {a b : List Cond} (hab : a.Perm b)
    (cards : List Card)
    (h : possibilities (.group a) cards ≠ []) :
    possibilities (.group b) cards ≠ [] := by
  simp only [possibilities] at h ⊢
  rw [group_nonempty_iff] at h ⊢
  obtain ⟨hne, sel, hfa, hpw⟩ := h
  have hperm : (possList a cards).Perm (possList b cards) := by
    rw [possList_eq_map, possList_eq_map]
    exact hab.map _
  obtain ⟨sel', hsp, hfa'⟩ := forall₂_perm hperm sel hfa
  refine ⟨?_, sel', hfa', ?_⟩
  · intro hb
    rw [hb] at hperm
    exact hne hperm.eq_nil
  · exact (hsp.pairwise_iff (fun h => Disjoint.symm h)).mp hpw

/-- Claim C4: for every list of sub-conditions and every permutation of
it, the group's possibility list on one ordering is empty iff it is empty
on the other — reordering never changes the pass/fail outcome. -/
theorem group_order_independent (l l' : List Cond) (hp : l.Perm l')
    (cards : List Card) :
    (possibilities (.group l) cards = [] ↔ possibilities (.group l') cards = []) :=
  not_iff_not.mp ⟨fun h => group_pass_perm_invariant hp cards h,
    fun h => group_pass_perm_invariant hp.symm cards h⟩

theorem group_order_independent_witness :
    (possibilities (.group [.sameNumber 2, .sameNumber 3]) testHand = [] ↔
     possibilities (.group [.sameNumber 3, .sameNumber 2]) testHand = []) :=
  group_order_independent _ _
    (List.Perm.swap (Cond.sameNumber 3) (Cond.sameNumber 2) []) testHand

theorem getLastD_mem {l : List ℕ} (h : l ≠ []) (d : ℕ) : l.getLastD d ∈ l := by
  rw [List.getLastD_eq_getLast?, List.getLast?_eq_getLast l h]
  exact List.getLast_mem h

theorem getLastD_not_mem_dropLast {l : List ℕ} (hnd : l.Nodup) (h : l ≠ [])
    (d : ℕ) : l.getLastD d ∉ l.dropLast := by
  rw [List.getLastD_eq_getLast?, List.getLast?_eq_getLast l h]
  intro hmem
  have hsplit : l.dropLast ++ [l.getLast h] = l := List.dropLast_append_getLast h
  have hnd2 : (l.dropLast ++ [l.getLast h]).Nodup := by rwa [hsplit]
  rw [List.nodup_append] at hnd2
  exact hnd2.2.2 hmem (List.mem_singleton.mpr rfl)

theorem handEnum_mem {cards : List Card} {q : ℕ × Card} (h : q ∈ handEnum cards) :
    q.1 < cards.length ∧ q.2 = cards.getD q.1 dCard := by
  unfold handEnum at h
  rw [List.mem_map] at h
  obtain ⟨i, hi, rfl⟩ := h
  rw [List.mem_range] at hi
  exact ⟨hi, rfl⟩

theorem buildStreakF_proj : ∀ (fuel : ℕ) (cands : List (ℕ × Card))
    (jokers : List ℕ) (cur : ℤ),
    buildStreakF fuel cands jokers cur =
      (buildStreakNF fuel cands jokers cur).map Prod.snd := by
  intro fuel
  induction fuel with
  | zero => intro cands jokers cur; rfl
  | succ n ih =>
    intro cands jokers cur
    simp only [buildStreakF, buildStreakNF]
    by_cases h1 : (cands.filter (fun p => p.2.number == cur)).isEmpty
    · by_cases h2 : jokers.isEmpty
      · simp [h1, h2]
      · simp [h1, h2, ih]
    · simp [h1, ih]

theorem buildStreakNF_fst : ∀ (fuel : ℕ) (cands : List (ℕ × Card))
    (jokers : List ℕ) (cur : ℤ) (i : ℕ)
    (h : i < (buildStreakNF fuel cands jokers cur).length),
    ((buildStreakNF fuel cands jokers cur)[i]).1 = cur + i := by
  intro fuel
  induction fuel with
  | zero => intro cands jokers cur i h; simp [buildStreakNF] at h
  | succ n ih =>
    intro cands jokers cur i h
    simp only [buildStreakNF] at h ⊢
    by_cases h1 : (cands.filter (fun p => p.2.number == cur)).isEmpty
    · by_cases h2 : jokers.isEmpty
      · simp [h1, h2] at h
      · simp only [h1, h2, if_true, if_false, Bool.false_eq_true] at h ⊢
        cases i with
        | zero => simp
        | succ j =>
          rw [List.getElem_cons_succ]
          rw [List.length_cons] at h
          rw [ih cands jokers.dropLast (cur+1) j (by omega)]
          push_cast
          ring
    · simp only [h1, Bool.false_eq_true, if_false] at h ⊢
      cases i with
      | zero => simp
      | succ j =>
        rw [List.getElem_cons_succ]
        rw [List.length_cons] at h
        rw [ih cands jokers (cur+1) j (by omega)]
        push_cast
        ring

theorem buildStreakNF_content : ∀ (fuel : ℕ) (cards : List Card)
    (jokers : List ℕ) (cur : ℤ),
    (∀ j ∈ jokers, numAt cards j = -1) →
    ∀ q ∈ buildStreakNF fuel (handEnum cards) jokers cur,
    ∀ p ∈ q.2, numAt cards p = q.1 ∨ (numAt cards p = -1 ∧ p ∈ jokers) := by
  intro fuel
  induction fuel with
  | zero => intro cards jokers cur _ q hq; simp [buildStreakNF] at hq
  | succ n ih =>
    intro cards jokers cur hjok q hq p hp
    simp only [buildStreakNF] at hq
    by_cases h1 : ((handEnum cards).filter (fun p => p.2.number == cur)).isEmpty
    · by_cases h2 : jokers.isEmpty
      · simp [h1, h2] at hq
      · simp only [h1, h2, Bool.false_eq_true, if_true, if_false] at hq
        rcases List.mem_cons.mp hq with rfl | hq
        · have hne : jokers ≠ [] := fun he => by simp [he] at h2
          have hj0 : jokers.getLastD 0 ∈ jokers := getLastD_mem hne 0
          have hp' : p = jokers.getLastD 0 := by simpa using hp
          exact Or.inr ⟨hp' ▸ hjok _ hj0, hp' ▸ hj0⟩
        · have := ih cards jokers.dropLast (cur+1)
            (fun j hj => hjok j ((List.dropLast_sublist _).subset hj)) q hq p hp
          rcases this with h | ⟨hn, hj⟩
          · exact Or.inl h
          · exact Or.inr ⟨hn, (List.dropLast_sublist _).subset hj⟩
    · simp only [h1, Bool.false_eq_true, if_false] at hq
      rcases List.mem_cons.mp hq with rfl | hq
      · left
        simp only at hp
        rw [List.mem_toFinset, List.mem_map] at hp
        obtain ⟨pair, hpair, rfl⟩ := hp
        rw [List.mem_filter] at hpair
        obtain ⟨hmem, hnum⟩ := hpair
        obtain ⟨hlt, heq⟩ := handEnum_mem hmem
        rw [beq_iff_eq] at hnum
        show numAt cards pair.1 = cur
        rw [numAt, ← heq, hnum]
      · rcases ih cards jokers (cur+1) hjok q hq p hp with h | h
        · exact Or.inl h
        · exact Or.inr h

theorem buildStreakNF_fst_ge (fuel : ℕ) (cands : List (ℕ × Card))
    (jokers : List ℕ) (cur : ℤ) (q : ℤ × Finset ℕ)
    (hq : q ∈ buildStreakNF fuel cands jokers cur) : cur ≤ q.1 := by
  obtain ⟨i, hi, rfl⟩ := List.mem_iff_getElem.mp hq
  rw [buildStreakNF_fst fuel cands jokers cur i hi]
  omega

theorem card_slot_mem {cards : List Card} {cur : ℤ} {p : ℕ}
    (hp : p ∈ (((handEnum cards).filter
      (fun q => q.2.number == cur)).map Prod.fst).toFinset) :
    numAt cards p = cur := by
  rw [List.mem_toFinset, List.mem_map] at hp
  obtain ⟨pair, hpair, rfl⟩ := hp
  rw [List.mem_filter] at hpair
  obtain ⟨hmem, hnum⟩ := hpair
  obtain ⟨hlt, heq⟩ := handEnum_mem hmem
  rw [beq_iff_eq] at hnum
  show numAt cards pair.1 = cur
  rw [numAt, ← heq, hnum]

theorem buildStreakNF_pairwise : ∀ (fuel : ℕ) (cards : List Card)
    (jokers : List ℕ) (cur : ℤ), jokers.Nodup →
    (∀ j ∈ jokers, numAt cards j = -1) → 1 ≤ cur →
    List.Pairwise (fun a b => Disjoint a.2 b.2)
      (buildStreakNF fuel (handEnum cards) jokers cur) := by
  intro fuel
  induction fuel with
  | zero => intro cards jokers cur _ _ _; simp [buildStreakNF]
  | succ n ih =>
    intro cards jokers cur hnd hjok hcur
    simp only [buildStreakNF]
    by_cases h1 : ((handEnum cards).filter (fun p => p.2.number == cur)).isEmpty
    · by_cases h2 : jokers.isEmpty
      · simp [h1, h2]
      · simp only [h1, h2, Bool.false_eq_true, if_true, if_false]
        rw [List.pairwise_cons]
        constructor
        · intro q' hq'
          rw [Finset.disjoint_left]
          intro p hp hpq'
          have hp0 : p = jokers.getLastD 0 := by simpa using hp
          have hne : jokers ≠ [] := fun he => by simp [he] at h2
          have hcontent := buildStreakNF_content n cards jokers.dropLast (cur+1)
            (fun j hj => hjok j ((List.dropLast_sublist _).subset hj)) q' hq' p hpq'
          have hge := buildStreakNF_fst_ge n _ jokers.dropLast (cur+1) q' hq'
          rcases hcontent with h | ⟨_, hj⟩
          · have : numAt cards p = -1 := hp0 ▸ hjok _ (getLastD_mem hne 0)
            omega
          · exact getLastD_not_mem_dropLast hnd hne 0 (hp0 ▸ hj)
        · exact ih cards jokers.dropLast (cur+1)
            ((List.dropLast_sublist _).nodup hnd)
            (fun j hj => hjok j ((List.dropLast_sublist _).subset hj))
            (by omega)
    · simp only [h1, Bool.false_eq_true, if_false]
      rw [List.pairwise_cons]
      constructor
      · intro q' hq'
        rw [Finset.disjoint_left]
        intro p hp hpq'
        have hpnum : numAt cards p = cur := card_slot_mem hp
        have hcontent := buildStreakNF_content n cards jokers (cur+1) hjok q' hq' p hpq'
        have hge := buildStreakNF_fst_ge n _ jokers (cur+1) q' hq'
        rcases hcontent with h | ⟨h, _⟩
        · omega
        · omega
      · exact ih cards jokers (cur+1) hnd hjok (by omega)

theorem handEnum_map_fst (cards : List Card) :
    (handEnum cards).map Prod.fst = List.range cards.length := by
  unfold handEnum
  rw [List.map_map]
  have h : (Prod.fst ∘ fun i => (i, cards.getD i dCard)) = id := rfl
  rw [h, List.map_id]

theorem availableJokers_nodup (cards : List Card) :
    (availableJokers (handEnum cards)).Nodup := by
  have hsub : List.Sublist (availableJokers (handEnum cards))
      ((handEnum cards).map Prod.fst) :=
    List.Sublist.map Prod.fst (List.filter_sublist _)
  rw [handEnum_map_fst] at hsub
  exact hsub.nodup (List.nodup_range _)

theorem availableJokers_wild (cards : List Card) :
    ∀ j ∈ availableJokers (handEnum cards), numAt cards j = -1 := by
  intro j hj
  unfold availableJokers at hj
  rw [List.mem_map] at hj
  obtain ⟨pair, hpair, rfl⟩ := hj
  rw [List.mem_filter] at hpair
  obtain ⟨hmem, hnum⟩ := hpair
  obtain ⟨hlt, heq⟩ := handEnum_mem hmem
  rw [beq_iff_eq] at hnum
  show numAt cards pair.1 = -1
  rw [numAt, ← heq, hnum]

theorem get_combinations_sound : ∀ (slots : List (Finset ℕ)), slots ≠ [] →
    ∀ S ∈ get_combinations slots, ∃ choice : List ℕ,
      choice.length = slots.length ∧
      (∀ i, (h : i < slots.length) → choice.getD i 0 ∈ slots[i]) ∧
      S = choice.toFinset
  | [], h => absurd rfl h
  | [P], _ => by
    intro S hS
    simp only [get_combinations, List.mem_map] at hS
    obtain ⟨pos, hpos, rfl⟩ := hS
    rw [mem_finsetAsc] at hpos
    refine ⟨[pos], rfl, ?_, by simp⟩
    intro i h
    have hi0 : i = 0 := by
      rw [List.length_singleton] at h
      omega
    subst hi0
    simpa using hpos
  | P :: Q :: rest, _ => by
    intro S hS
    simp only [get_combinations, List.mem_flatten, List.mem_map] at hS
    obtain ⟨l, ⟨pos, hpos, rfl⟩, hmem⟩ := hS
    rw [List.mem_map] at hmem
    obtain ⟨s, hs, rfl⟩ := hmem
    rw [mem_finsetAsc] at hpos
    obtain ⟨choice, hlen, hslot, rfl⟩ :=
      get_combinations_sound (Q :: rest) (List.cons_ne_nil _ _) s hs
    refine ⟨pos :: choice, by simp [hlen], ?_, ?_⟩
    · intro i h
      cases i with
      | zero => simpa using hpos
      | succ j =>
        have hj : j < (Q :: rest).length := by
          rw [List.length_cons] at h
          omega
        have := hslot j hj
        simpa using this
    · rw [List.toFinset_cons, Finset.insert_eq, Finset.union_comm]

theorem runPossF_mem : ∀ (fuel : ℕ) (k : ℕ) (cands : List (ℕ × Card)) (cur : ℤ),
    1 ≤ cur → ∀ S ∈ runPossF fuel k cands cur,
    ∃ cur' : ℤ, 1 ≤ cur' ∧ ∃ i : ℕ,
      i + k ≤ (buildStreakF (cands.length + (availableJokers cands).length + 1)
        cands (availableJokers cands) cur').length ∧
      S ∈ get_combinations (((buildStreakF (cands.length +
        (availableJokers cands).length + 1) cands (availableJokers cands)
        cur').drop i).take k) := by
  intro fuel
  induction fuel with
  | zero =>
    intro k cands cur _ S hS
    simp [runPossF] at hS
  | succ n ih =>
    intro k cands cur hcur S hS
    simp only [runPossF] at hS
    by_cases hle : cur ≤ 12
    · rw [if_pos hle, List.mem_append] at hS
      rcases hS with hS | hS
      · simp only [get_possibilities, List.mem_flatten, List.mem_map] at hS
        obtain ⟨l, ⟨i, hi, rfl⟩, hmem⟩ := hS
        rw [List.mem_range] at hi
        exact ⟨cur, hcur, i, by omega, hmem⟩
      · exact ih k cands _ (by omega) S hS
    · rw [if_neg hle] at hS
      simp at hS

theorem anyList_raw (k : ℕ) (cards : List Card) (hk : 1 ≤ k) :
    ∀ S ∈ anyListPossibilities k cards,
    S.card = k ∧ ∃ s : ℤ, 1 ≤ s ∧ ∃ f : ℕ → ℤ,
      Set.InjOn f ↑S ∧
      (∀ p ∈ S, f p ∈ Finset.Icc s (s + k - 1)) ∧
      (∀ p ∈ S, numAt cards p ≠ -1 → f p = numAt cards p) := by
  intro S hS
  unfold anyListPossibilities at hS
  obtain ⟨cur', hcur', i, hik, hmem⟩ :=
    runPossF_mem 13 k (handEnum cards) 1 (by omega) S hS
  have hproj : buildStreakF ((handEnum cards).length +
      (availableJokers (handEnum cards)).length + 1) (handEnum cards)
      (availableJokers (handEnum cards)) cur' =
      (buildStreakNF ((handEnum cards).length +
        (availableJokers (handEnum cards)).length + 1) (handEnum cards)
        (availableJokers (handEnum cards)) cur').map Prod.snd :=
    buildStreakF_proj _ _ _ _
  rw [hproj] at hik hmem
  have hcontent_all := buildStreakNF_content ((handEnum cards).length +
    (availableJokers (handEnum cards)).length + 1) cards
    (availableJokers (handEnum cards)) cur' (availableJokers_wild cards)
  have hfst_all := buildStreakNF_fst ((handEnum cards).length +
    (availableJokers (handEnum cards)).length + 1) (handEnum cards)
    (availableJokers (handEnum cards)) cur'
  set sN := buildStreakNF ((handEnum cards).length +
    (availableJokers (handEnum cards)).length + 1) (handEnum cards)
    (availableJokers (handEnum cards)) cur' with hsN
  rw [List.length_map] at hik
  have hwin : ((sN.map Prod.snd).drop i).take k =
      ((sN.drop i).take k).map Prod.snd := by
    rw [← List.map_drop, ← List.map_take]
  rw [hwin] at hmem
  have hwlen : ((sN.drop i).take k).length = k := by
    rw [List.length_take, List.length_drop]
    omega
  have hne : ((sN.drop i).take k).map Prod.snd ≠ [] := by
    intro h
    have h2 := congrArg List.length h
    rw [List.length_map, hwlen] at h2
    simp at h2
    omega
  obtain ⟨choice, hclen, hcslot, rfl⟩ := get_combinations_sound _ hne _ hmem
  rw [List.length_map, hwlen] at hclen
  have hwget : ∀ j, (hj : j < k) → ∀ (hb : i + j < sN.length),
      ((sN.drop i).take k)[j] = sN[i + j] := by
    intro j hj hb
    rw [List.getElem_take, List.getElem_drop]
  -- slot membership for each chosen position, in instrumented form
  have hslotmem : ∀ j, (hj : j < k) →
      ∀ (hb : i + j < sN.length), choice[j] ∈ (sN[i + j]).2 := by
    intro j hj hb
    have h1 := hcslot j (by rw [List.length_map, hwlen]; omega)
    rw [List.getD_eq_getElem _ _ (by omega), List.getElem_map] at h1
    rw [hwget j hj hb] at h1
    exact h1
  have hsNlen : ∀ j, j < k → i + j < sN.length := by
    intro j hj
    omega
  -- pairwise disjointness of the streak slots
  have hpw := buildStreakNF_pairwise ((handEnum cards).length +
      (availableJokers (handEnum cards)).length + 1) cards
      (availableJokers (handEnum cards)) cur'
      (availableJokers_nodup cards) (availableJokers_wild cards) hcur'
  rw [← hsN] at hpw
  rw [List.pairwise_iff_getElem] at hpw
  -- the chosen positions are pairwise distinct
  have hchoice_nd : choice.Nodup := by
    rw [List.nodup_iff_injective_get]
    intro a b heq
    by_contra hne2
    have hab : (a : ℕ) ≠ (b : ℕ) := fun h => hne2 (Fin.ext h)
    have ha : (a : ℕ) < k := by
      have := a.isLt
      omega
    have hb : (b : ℕ) < k := by
      have := b.isLt
      omega
    have hma := hslotmem a ha (hsNlen a ha)
    have hmb := hslotmem b hb (hsNlen b hb)
    rw [List.get_eq_getElem, List.get_eq_getElem] at heq
    rw [heq] at hma
    rcases Nat.lt_trichotomy (a : ℕ) (b : ℕ) with h | h | h
    · have hd := hpw (i + a) (i + b) (hsNlen a ha) (hsNlen b hb) (by omega)
      exact Finset.disjoint_left.mp hd hma hmb
    · exact hab h
    · have hd := hpw (i + b) (i + a) (hsNlen b hb) (hsNlen a ha) (by omega)
      exact Finset.disjoint_left.mp hd hmb hma
  have hcard : choice.toFinset.card = k := by
    rw [List.toFinset_card_of_nodup hchoice_nd, hclen]
  refine ⟨hcard, cur' + i, by omega, fun p => cur' + i + (choice.indexOf p : ℤ),
    ?_, ?_, ?_⟩
  · intro p hp q hq heq
    rw [Finset.mem_coe, List.mem_toFinset] at hp hq
    have hip : choice.indexOf p < choice.length := List.indexOf_lt_length.mpr hp
    have hiq : choice.indexOf q < choice.length := List.indexOf_lt_length.mpr hq
    have heq2 : cur' + (i : ℤ) + (choice.indexOf p : ℤ)
        = cur' + (i : ℤ) + (choice.indexOf q : ℤ) := heq
    have hidx : choice.indexOf p = choice.indexOf q := by omega
    have h1 := List.getElem_indexOf hip
    have h2 := List.getElem_indexOf hiq
    rw [← h1, ← h2]
    simp only [hidx]
  · intro p hp
    rw [List.mem_toFinset] at hp
    have hip : choice.indexOf p < choice.length := List.indexOf_lt_length.mpr hp
    show cur' + (i : ℤ) + (choice.indexOf p : ℤ) ∈
      Finset.Icc (cur' + (i : ℤ)) (cur' + (i : ℤ) + (k : ℤ) - 1)
    rw [Finset.mem_Icc]
    rw [hclen] at hip
    have hipZ : (choice.indexOf p : ℤ) < (k : ℤ) := by exact_mod_cast hip
    omega
  · intro p hp hnum
    rw [List.mem_toFinset] at hp
    have hip : choice.indexOf p < choice.length := List.indexOf_lt_length.mpr hp
    have hipk : choice.indexOf p < k := by omega
    have hmemslot := hslotmem (choice.indexOf p) hipk (hsNlen _ hipk)
    have hgp := List.getElem_indexOf hip
    rw [hgp] at hmemslot
    have hblt : i + choice.indexOf p < sN.length := hsNlen _ hipk
    have hq : sN[i + choice.indexOf p] ∈ sN := List.getElem_mem hblt
    have hcontent := hcontent_all _ hq p hmemslot
    have hfst := hfst_all (i + choice.indexOf p) (hsNlen _ hipk)
    rcases hcontent with h | ⟨h, _⟩
    · show cur' + (i : ℤ) + (choice.indexOf p : ℤ) = numAt cards p
      rw [h, hfst]
      push_cast
      ring
    · exact absurd h hnum

theorem numAt_le_12 {cards : List Card} {p : ℕ}
    (hval : ∀ cd ∈ cards, cd.number = -1 ∨ (1 ≤ cd.number ∧ cd.number ≤ 12))
    (hpos : 1 ≤ numAt cards p) : numAt cards p ≤ 12 := by
  by_cases hp : p < cards.length
  · have hmem : cards.getD p dCard ∈ cards := by
      rw [List.getD_eq_getElem _ _ hp]
      exact List.getElem_mem _
    rcases hval _ hmem with h | h
    · rw [numAt] at hpos
      omega
    · exact h.2
  · rw [numAt, List.getD_eq_default _ _ (by omega)] at hpos
    simp [dCard] at hpos

theorem anyList_consecutive_12 (k : ℕ) (cards : List Card) (hk : 1 ≤ k)
    (hk12 : k ≤ 12)
    (hval : ∀ cd ∈ cards, cd.number = -1 ∨ (1 ≤ cd.number ∧ cd.number ≤ 12))
    (S : Finset ℕ) (hS : S ∈ anyListPossibilities k cards) :
    S.card = k ∧ ∃ s : ℤ, 1 ≤ s ∧ s + k - 1 ≤ 12 ∧ ∃ f : ℕ → ℤ,
      Set.InjOn f ↑S ∧ (∀ p ∈ S, f p ∈ Finset.Icc s (s + k - 1)) ∧
      (∀ p ∈ S, numAt cards p ≠ -1 → f p = numAt cards p) := by
  obtain ⟨hcard, s, hs, f, hinj, hicc, hmatch⟩ := anyList_raw k cards hk S hS
  by_cases hbound : s + k - 1 ≤ 12
  · exact ⟨hcard, s, hs, hbound, f, hinj, hicc, hmatch⟩
  refine ⟨hcard, 13 - (k : ℤ), by omega, by ring_nf; omega, ?_⟩
  have hnum_mem : ∀ p ∈ S, numAt cards p ≠ -1 →
      numAt cards p ∈ Finset.Icc (13 - (k : ℤ)) (13 - (k : ℤ) + k - 1) := by
    intro p hp hne
    have h1 := hicc p hp
    have h2 := hmatch p hp hne
    rw [Finset.mem_Icc] at h1 ⊢
    have hge1 : 1 ≤ numAt cards p := by omega
    have h12 := numAt_le_12 hval hge1
    omega
  classical
  set J := S.filter (fun p => numAt cards p = -1) with hJdef
  set R := S.filter (fun p => ¬ numAt cards p = -1) with hRdef
  have hRS : R ⊆ S := Finset.filter_subset _ _
  have hJS : J ⊆ S := Finset.filter_subset _ _
  have hpart : J.card + R.card = k := by
    rw [hJdef, hRdef, Finset.filter_card_add_filter_neg_card_eq_card, hcard]
  have hinjR : Set.InjOn (numAt cards) ↑R := by
    intro p hp q hq heq
    rw [Finset.mem_coe, hRdef, Finset.mem_filter] at hp hq
    have hfp := hmatch p hp.1 hp.2
    have hfq := hmatch q hq.1 hq.2
    exact hinj (Finset.mem_coe.mpr hp.1) (Finset.mem_coe.mpr hq.1)
      (by rw [hfp, hfq, heq])
  have hNRsub : R.image (numAt cards) ⊆
      Finset.Icc (13 - (k : ℤ)) (13 - (k : ℤ) + k - 1) := by
    intro x hx
    rw [Finset.mem_image] at hx
    obtain ⟨p, hp, rfl⟩ := hx
    rw [hRdef, Finset.mem_filter] at hp
    exact hnum_mem p hp.1 hp.2
  have hNRcard : (R.image (numAt cards)).card = R.card :=
    Finset.card_image_of_injOn hinjR
  have hIcccard : (Finset.Icc (13 - (k : ℤ)) (13 - (k : ℤ) + k - 1)).card = k := by
    rw [Int.card_Icc]
    have h2 : (13 - (k : ℤ) + k - 1 + 1 - (13 - k)) = (k : ℤ) := by ring
    rw [h2]
    exact Int.toNat_natCast k
  have hFreecard : J.card = ((Finset.Icc (13 - (k : ℤ))
      (13 - (k : ℤ) + k - 1)) \ R.image (numAt cards)).card := by
    rw [Finset.card_sdiff hNRsub, hIcccard, hNRcard]
    omega
  set e := Finset.equivOfCardEq hFreecard with hedef
  refine ⟨fun p => if h : p ∈ J then ((e ⟨p, h⟩ : ℤ)) else numAt cards p,
    ?_, ?_, ?_⟩
  · intro p hp q hq heq
    rw [Finset.mem_coe] at hp hq
    simp only at heq
    by_cases hpJ : p ∈ J <;> by_cases hqJ : q ∈ J
    · rw [dif_pos hpJ, dif_pos hqJ] at heq
      have h2 : e ⟨p, hpJ⟩ = e ⟨q, hqJ⟩ := Subtype.ext heq
      have h3 := e.injective h2
      exact congrArg Subtype.val h3
    · rw [dif_pos hpJ, dif_neg hqJ] at heq
      exfalso
      have hfree := (e ⟨p, hpJ⟩).2
      rw [Finset.mem_sdiff] at hfree
      apply hfree.2
      rw [heq]
      rw [Finset.mem_image]
      refine ⟨q, ?_, rfl⟩
      rw [hRdef, Finset.mem_filter]
      refine ⟨hq, ?_⟩
      intro hq2
      exact hqJ (by rw [hJdef, Finset.mem_filter]; exact ⟨hq, hq2⟩)
    · rw [dif_neg hpJ, dif_pos hqJ] at heq
      exfalso
      have hfree := (e ⟨q, hqJ⟩).2
      rw [Finset.mem_sdiff] at hfree
      apply hfree.2
      rw [← heq]
      rw [Finset.mem_image]
      refine ⟨p, ?_, rfl⟩
      rw [hRdef, Finset.mem_filter]
      refine ⟨hp, ?_⟩
      intro hp2
      exact hpJ (by rw [hJdef, Finset.mem_filter]; exact ⟨hp, hp2⟩)
    · rw [dif_neg hpJ, dif_neg hqJ] at heq
      have hpR : p ∈ R := by
        rw [hRdef, Finset.mem_filter]
        refine ⟨hp, fun h2 => hpJ ?_⟩
        rw [hJdef, Finset.mem_filter]
        exact ⟨hp, h2⟩
      have hqR : q ∈ R := by
        rw [hRdef, Finset.mem_filter]
        refine ⟨hq, fun h2 => hqJ ?_⟩
        rw [hJdef, Finset.mem_filter]
        exact ⟨hq, h2⟩
      exact hinjR (Finset.mem_coe.mpr hpR) (Finset.mem_coe.mpr hqR) heq
  · intro p hp
    show (if h : p ∈ J then ((e ⟨p, h⟩ : ℤ)) else numAt cards p) ∈
      Finset.Icc (13 - (k : ℤ)) (13 - (k : ℤ) + k - 1)
    by_cases hpJ : p ∈ J
    · rw [dif_pos hpJ]
      have hfree := (e ⟨p, hpJ⟩).2
      rw [Finset.mem_sdiff] at hfree
      exact hfree.1
    · rw [dif_neg hpJ]
      refine hnum_mem p hp ?_
      intro h2
      exact hpJ (by rw [hJdef, Finset.mem_filter]; exact ⟨hp, h2⟩)
  · intro p hp hne
    have hpJ : p ∉ J := by
      rw [hJdef, Finset.mem_filter]
      rintro ⟨_, h2⟩
      exact hne h2
    show (if h : p ∈ J then ((e ⟨p, h⟩ : ℤ)) else numAt cards p) = numAt cards p
    rw [dif_neg hpJ]

theorem find_matches_card_generic (ms : List ℕ) (hnd : ms.Nodup) (k : ℕ)
    (S : Finset ℕ)
    (hS : S ∈ (if ms.length < k then ([] : List (Finset ℕ))
      else if ms.length = k then [ms.toFinset]
      else internal_possibilities ∅ ms (ms.length - k))) : S.card = k := by
  by_cases h1 : ms.length < k
  · rw [if_pos h1] at hS
    simp at hS
  · rw [if_neg h1] at hS
    by_cases h2 : ms.length = k
    · rw [if_pos h2] at hS
      rw [List.mem_singleton] at hS
      subst hS
      rw [List.toFinset_card_of_nodup hnd, h2]
    · rw [if_neg h2] at hS
      obtain ⟨T, hsub, hcard, rfl⟩ := ip_shape (ms.length - k) (by omega) ∅ ms
        (by omega) hnd (by simp) S hS
      rw [Finset.empty_union]
      omega

theorem find_matches_number_card {k : ℕ} {cards : List Card} {n : ℤ}
    {S : Finset ℕ} (hS : S ∈ find_matches_number k cards n) : S.card = k :=
  find_matches_card_generic (matchesByNumber cards n)
    ((List.nodup_range _).filter _) k S hS

theorem find_matches_colour_card {k : ℕ} {cards : List Card} {col : String}
    {S : Finset ℕ} (hS : S ∈ find_matches_colour k cards col) : S.card = k :=
  find_matches_card_generic (matchesByColour cards col)
    ((List.nodup_range _).filter _) k S hS

theorem leaf_possibility_card (c : Cond) (cards : List Card) (S : Finset ℕ)
    (hleaf : isLeaf c = true) (hk : 1 ≤ requiredOf c)
    (hS : S ∈ possibilities c cards) : S.card = requiredOf c := by
  cases c with
  | sameNumber k =>
    simp only [possibilities] at hS
    rw [List.mem_flatten] at hS
    obtain ⟨l, hl, hSl⟩ := hS
    rw [List.mem_map] at hl
    obtain ⟨n, hn, rfl⟩ := hl
    exact find_matches_number_card hSl
  | sameColour k =>
    simp only [possibilities] at hS
    rw [List.mem_flatten] at hS
    obtain ⟨l, hl, hSl⟩ := hS
    rw [List.mem_map] at hl
    obtain ⟨col, hcol, rfl⟩ := hl
    exact find_matches_colour_card hSl
  | anyList k =>
    simp only [possibilities] at hS
    exact (anyList_raw k cards hk S hS).1
  | sameColourList k =>
    simp only [possibilities] at hS
    unfold sameColourListPossibilities at hS
    exact (anyList_raw k cards hk S (List.mem_of_mem_filter hS)).1
  | group subs => simp [isLeaf] at hleaf

theorem sel_sizes (cards : List Card) : ∀ (sel : List (Finset ℕ))
    (subs : List Cond),
    List.Forall₂ (fun x c => x ∈ possibilities c cards) sel subs →
    (∀ c ∈ subs, isLeaf c = true ∧ 1 ≤ requiredOf c) →
    sel.map Finset.card = subs.map requiredOf := by
  intro sel subs hfa
  induction hfa with
  | nil => intro _; rfl
  | cons hR hfa ih =>
    intro hok
    rw [List.map_cons, List.map_cons]
    have h1 := hok _ (List.mem_cons_self _ _)
    rw [leaf_possibility_card _ cards _ h1.1 h1.2 hR,
      ih (fun c hc => hok c (List.mem_cons_of_mem _ hc))]

/-- Claim C3: every position set returned by a group of Set/Run leaves uses no
hand position twice and has size equal to the sum of the sub-conditions'
required numbers. -/
theorem group_disjoint_sizes (subs : List Cond) (cards : List Card)
    (hleaf : ∀ c ∈ subs, isLeaf c = true)
    (hreq : ∀ c ∈ subs, 1 ≤ requiredOf c ∧ requiredOf c ≤ 10)
    (hlen : cards.length = 10) (S : Finset ℕ)
    (hS : S ∈ possibilities (.group subs) cards) :
    S.card = (subs.map requiredOf).sum := by
  simp only [possibilities] at hS
  obtain ⟨hne, sel, hfa, hpw, rfl⟩ := (groupPossibilities_mem _ _).mp hS
  rw [card_unionAll hpw]
  rw [possList_eq_map] at hfa
  rw [List.forall₂_map_right_iff] at hfa
  rw [sel_sizes cards sel subs hfa
    (fun c hc => ⟨hleaf c hc, (hreq c hc).1⟩)]

theorem group_disjoint_sizes_witness :
    ({8, 9} : Finset ℕ).card = ([Cond.sameNumber 2].map requiredOf).sum :=
  group_disjoint_sizes [.sameNumber 2] testHand (by decide) (by decide)
    (by decide) {8, 9} (by simp only [possibilities, possList]; decide)

/-- Claim C2 (amended): for valid hands (numbers in 1..12 or the wildcard
sentinel), every position set returned by a run condition has size k and
CAN be assigned k consecutive numbers lying within 1..12 (each real card
at its own number, wildcards filling the gaps); however the streak walk
itself does NOT stay within 1..12 — see `run_condition_overrun_12`. -/
theorem run_condition_in_range (c : Cond) (k : ℕ) (cards : List Card)
    (hc : c = Cond.anyList k ∨ c = Cond.sameColourList k)
    (hk : 1 ≤ k) (hk10 : k ≤ 10) (hlen : cards.length = 10)
    (hval : ∀ cd ∈ cards, cd.number = -1 ∨ (1 ≤ cd.number ∧ cd.number ≤ 12))
    (S : Finset ℕ) (hS : S ∈ possibilities c cards) :
    S.card = k ∧ ∃ s : ℤ, 1 ≤ s ∧ s + k - 1 ≤ 12 ∧ ∃ f : ℕ → ℤ,
      Set.InjOn f ↑S ∧ (∀ p ∈ S, f p ∈ Finset.Icc s (s + k - 1)) ∧
      (∀ p ∈ S, numAt cards p ≠ -1 → f p = numAt cards p) := by
  have hS' : S ∈ anyListPossibilities k cards := by
    rcases hc with rfl | rfl
    · simpa only [possibilities] using hS
    · simp only [possibilities] at hS
      unfold sameColourListPossibilities at hS
      exact List.mem_of_mem_filter hS
  exact anyList_consecutive_12 k cards hk (by omega) hval S hS'

theorem run_condition_in_range_witness :
    ({0, 1, 2} : Finset ℕ).card = 3 ∧ ∃ s : ℤ, 1 ≤ s ∧ s + (3 : ℕ) - 1 ≤ 12 ∧
      ∃ f : ℕ → ℤ, Set.InjOn f ↑({0, 1, 2} : Finset ℕ) ∧
      (∀ p ∈ ({0, 1, 2} : Finset ℕ), f p ∈ Finset.Icc s (s + (3 : ℕ) - 1)) ∧
      (∀ p ∈ ({0, 1, 2} : Finset ℕ), numAt testHand p ≠ -1 →
        f p = numAt testHand p) :=
  run_condition_in_range (.anyList 3) 3 testHand (Or.inl rfl) (by decide)
    (by decide) (by decide) (by decide) {0, 1, 2}
    (by simp only [possibilities]; decide)

/-- Claim C2 counterexample: on `overrunHand` (cards 10, 11, 12, one wildcard,
six 1s) the streak walk that starts at 10 builds the slots
(10,{0}), (11,{1}), (12,{2}), (13,{3}) — the wildcard at position 3 is
borrowed for the slot numbered 13, beyond 12 — and the single returned
4-run {0,1,2,3} comes from exactly that streak.  So the claim that
"streak construction walks numbers 1..12 only" and that no returned set
assigns a wildcard to a slot greater than 12 is false. -/
theorem run_condition_overrun_12 :
    possibilities (.anyList 4) overrunHand = [({0, 1, 2, 3} : Finset ℕ)] ∧
    buildStreakNF ((handEnum overrunHand).length +
      (availableJokers (handEnum overrunHand)).length + 1)
      (handEnum overrunHand) (availableJokers (handEnum overrunHand)) 10 =
      [(10, {0}), (11, {1}), (12, {2}), (13, {3})] ∧
    numAt overrunHand 3 = -1 ∧ ¬ ((13 : ℤ) ≤ 12) := by
  refine ⟨?_, by decide, by decide, by decide⟩
  simp only [possibilities]
  decide

theorem mapM_some {α β : Type} (f : α → Option β) (g : α → β) :
    ∀ (l : List α), (∀ a ∈ l, f a = some (g a)) → l.mapM f = some (l.map g) := by
  intro l
  induction l with
  | nil => intro _; rfl
  | cons a t ih =>
    intro h
    rw [List.mapM_cons, h a (List.mem_cons_self _ _),
      ih (fun x hx => h x (List.mem_cons_of_mem _ hx))]
    rfl

theorem internal_possibilitiesO_eq : ∀ (levels : ℕ), 1 ≤ levels →
    ∀ (pfx : Finset ℕ) (L : List ℕ),
    internal_possibilitiesO pfx L levels =
      some (internal_possibilities pfx L levels)
  | 1, _ => by
    intro pfx L
    rfl
  | (n+2), _ => by
    intro pfx L
    simp only [internal_possibilitiesO, internal_possibilities]
    rw [mapM_some _ (fun rem => internal_possibilities
        (L.take rem).toFinset (L.drop (rem+1)) (n+1)) _
      (fun rem _ => internal_possibilitiesO_eq (n+1) (by omega) _ _)]
    rfl

theorem get_combinationsO_eq : ∀ (slots : List (Finset ℕ)), slots ≠ [] →
    get_combinationsO slots = some (get_combinations slots)
  | [], h => absurd rfl h
  | [P], _ => rfl
  | P :: Q :: rest, _ => by
    simp only [get_combinationsO, get_combinations]
    rw [get_combinationsO_eq (Q :: rest) (List.cons_ne_nil _ _)]
    rfl

theorem get_possibilitiesO_eq (k : ℕ) (hk : 1 ≤ k)
    (full_list : List (Finset ℕ)) :
    get_possibilitiesO k full_list = some (get_possibilities k full_list) := by
  unfold get_possibilitiesO get_possibilities
  rw [mapM_some _ (fun i => get_combinations ((full_list.drop i).take k)) _ ?_]
  · rfl
  · intro i hi
    rw [List.mem_range] at hi
    apply get_combinationsO_eq
    intro he
    have hlen := congrArg List.length he
    rw [List.length_take, List.length_drop] at hlen
    simp at hlen
    omega

theorem runPossFO_eq : ∀ (fuel k : ℕ) (cands : List (ℕ × Card)) (cur : ℤ),
    1 ≤ k → runPossFO fuel k cands cur = some (runPossF fuel k cands cur) := by
  intro fuel
  induction fuel with
  | zero => intro k cands cur _; rfl
  | succ n ih =>
    intro k cands cur hk
    simp only [runPossFO, runPossF]
    by_cases hle : cur ≤ 12
    · rw [if_pos hle, if_pos hle, get_possibilitiesO_eq k hk, ih k cands _ hk]
      rfl
    · rw [if_neg hle, if_neg hle]

theorem find_matches_numberO_eq (k : ℕ) (hk : 1 ≤ k) (cards : List Card)
    (n : ℤ) : find_matches_numberO k cards n = some (find_matches_number k cards n) := by
  unfold find_matches_numberO find_matches_number
  by_cases h1 : (matchesByNumber cards n).length < k
  · rw [if_pos h1, if_pos h1]
  · rw [if_neg h1, if_neg h1]
    by_cases h2 : (matchesByNumber cards n).length = k
    · rw [if_pos h2, if_pos h2]
    · rw [if_neg h2, if_neg h2]
      exact internal_possibilitiesO_eq _ (by omega) _ _

theorem find_matches_colourO_eq (k : ℕ) (hk : 1 ≤ k) (cards : List Card)
    (col : String) :
    find_matches_colourO k cards col = some (find_matches_colour k cards col) := by
  unfold find_matches_colourO find_matches_colour
  by_cases h1 : (matchesByColour cards col).length < k
  · rw [if_pos h1, if_pos h1]
  · rw [if_neg h1, if_neg h1]
    by_cases h2 : (matchesByColour cards col).length = k
    · rw [if_pos h2, if_pos h2]
    · rw [if_neg h2, if_neg h2]
      exact internal_possibilitiesO_eq _ (by omega) _ _

mutual

theorem possibilitiesO_eq : ∀ (c : Cond) (cards : List Card),
    requiredOkB c = true → possibilitiesO c cards = some (possibilities c cards)
  | .sameNumber k, cards, h => by
    have hk : 1 ≤ k := by
      simp only [requiredOkB, decide_eq_true_eq] at h
      omega
    simp only [possibilitiesO, possibilities]
    rw [mapM_some _ (fun n => find_matches_number k cards n) _
      (fun n _ => find_matches_numberO_eq k hk cards n)]
    rfl
  | .sameColour k, cards, h => by
    have hk : 1 ≤ k := by
      simp only [requiredOkB, decide_eq_true_eq] at h
      omega
    simp only [possibilitiesO, possibilities]
    rw [mapM_some _ (fun col => find_matches_colour k cards col) _
      (fun col _ => find_matches_colourO_eq k hk cards col)]
    rfl
  | .anyList k, cards, h => by
    have hk : 1 ≤ k := by
      simp only [requiredOkB, decide_eq_true_eq] at h
      omega
    simp only [possibilitiesO, possibilities]
    unfold anyListPossibilitiesO anyListPossibilities
    exact runPossFO_eq 13 k _ 1 hk
  | .sameColourList k, cards, h => by
    have hk : 1 ≤ k := by
      simp only [requiredOkB, decide_eq_true_eq] at h
      omega
    simp only [possibilitiesO, possibilities]
    unfold sameColourListPossibilitiesO sameColourListPossibilities
    unfold anyListPossibilitiesO anyListPossibilities
    rw [runPossFO_eq 13 k _ 1 hk]
    rfl
  | .group subs, cards, h => by
    simp only [possibilitiesO, possibilities]
    rw [possListO_eq subs cards (by simpa only [requiredOkB] using h)]
    rfl

theorem possListO_eq : ∀ (cs : List Cond) (cards : List Card),
    requiredOkList cs = true → possListO cs cards = some (possList cs cards)
  | [], _, _ => rfl
  | c :: cs, cards, h => by
    simp only [requiredOkList, Bool.and_eq_true] at h
    simp only [possListO, possList]
    rw [possibilitiesO_eq c cards h.1, possListO_eq cs cards h.2]
    rfl

end

/-- Claim C7: for every condition tree with required counts in [1,10] and every
10-card hand, enumeration is total: the Option-valued pipeline (whose
`none` marks exactly the code paths on which the Python source would not
return) produces `some` of the plain result — a (possibly empty) list is
always returned and no error is ever raised. -/
theorem enumeration_total (c : Cond) (cards : List Card)
    (hok : requiredOkB c = true) (hlen : cards.length = 10) :
    possibilitiesO c cards = some (possibilities c cards) :=
  possibilitiesO_eq c cards hok

theorem enumeration_total_witness :
    possibilitiesO (.group [.sameNumber 2, .anyList 3]) testHand =
      some (possibilities (.group [.sameNumber 2, .anyList 3]) testHand) :=
  enumeration_total (.group [.sameNumber 2, .anyList 3]) testHand
    (by simp only [requiredOkB, requiredOkList]; decide) (by decide)

/-- Claim C10 counterexample: two hands identical in every card number
(including the wildcard sentinel -1 at position 2) but differing in the
wildcard's colour give different outcomes for SameColourList(3): the
blue wildcard completes a blue run, the black one is rejected by the
monochrome filter.  Wildcard behaviour is therefore NOT decided solely
by the number field. -/
theorem wildcard_colour_consulted :
    wildBlueHand.map Card.number = wildBlackHand.map Card.number ∧
    numAt wildBlackHand 2 = -1 ∧
    hand_passed (.sameColourList 3) wildBlueHand = true ∧
    hand_passed (.sameColourList 3) wildBlackHand = false := by
  refine ⟨by decide, by decide, ?_, ?_⟩
  · simp only [hand_passed, possibilities]
    decide
  · simp only [hand_passed, possibilities]
    decide

theorem retype_length (g : Card → String) (cards : List Card) :
    (retype g cards).length = cards.length := List.length_map _ _

theorem getD_retype (g : Card → String) (cards : List Card) (p : ℕ) :
    (retype g cards).getD p dCard =
      if h : p < cards.length then
        ⟨(cards.getD p dCard).colour, (cards.getD p dCard).number,
          g (cards.getD p dCard)⟩
      else dCard := by
  by_cases h : p < cards.length
  · rw [dif_pos h]
    rw [List.getD_eq_getElem _ _ (by rw [retype_length]; exact h),
      List.getD_eq_getElem _ _ h]
    unfold retype
    rw [List.getElem_map]
  · rw [dif_neg h]
    rw [List.getD_eq_default _ _ (by rw [retype_length]; omega)]

theorem numAt_retype (g : Card → String) (cards : List Card) (p : ℕ) :
    numAt (retype g cards) p = numAt cards p := by
  unfold numAt
  rw [getD_retype]
  by_cases h : p < cards.length
  · rw [dif_pos h]
  · rw [dif_neg h, List.getD_eq_default _ _ (by omega)]

theorem colAt_retype (g : Card → String) (cards : List Card) (p : ℕ) :
    colAt (retype g cards) p = colAt cards p := by
  unfold colAt
  rw [getD_retype]
  by_cases h : p < cards.length
  · rw [dif_pos h]
  · rw [dif_neg h, List.getD_eq_default _ _ (by omega)]

theorem handEnum_length (cards : List Card) :
    (handEnum cards).length = cards.length := by
  unfold handEnum
  rw [List.length_map, List.length_range]

theorem handEnum_filter_fst (cards : List Card) (q : Card → Bool) :
    ((handEnum cards).filter (fun p => q p.2)).map Prod.fst =
    (List.range cards.length).filter (fun i => q (cards.getD i dCard)) := by
  unfold handEnum
  rw [List.filter_map, List.map_map]
  have h1 : (Prod.fst ∘ fun i => (i, cards.getD i dCard)) = id := rfl
  have h2 : ((fun p : ℕ × Card => q p.2) ∘ fun i => (i, cards.getD i dCard)) =
      fun i => q (cards.getD i dCard) := rfl
  rw [h1, h2, List.map_id]

theorem handEnum_filter_fst_retype (g : Card → String) (cards : List Card)
    (q : Card → Bool)
    (hq : ∀ cd : Card, q ⟨cd.colour, cd.number, g cd⟩ = q cd) :
    ((handEnum (retype g cards)).filter (fun p => q p.2)).map Prod.fst =
    ((handEnum cards).filter (fun p => q p.2)).map Prod.fst := by
  rw [handEnum_filter_fst, handEnum_filter_fst, retype_length]
  apply List.filter_congr
  intro i hi
  rw [List.mem_range] at hi
  rw [getD_retype, dif_pos hi, hq]

theorem availableJokers_retype (g : Card → String) (cards : List Card) :
    availableJokers (handEnum (retype g cards)) =
    availableJokers (handEnum cards) := by
  unfold availableJokers
  exact handEnum_filter_fst_retype g cards (fun cd => cd.number == (-1 : ℤ))
    (fun cd => rfl)

theorem buildStreakF_retype (g : Card → String) (cards : List Card) :
    ∀ (fuel : ℕ) (jokers : List ℕ) (cur : ℤ),
    buildStreakF fuel (handEnum (retype g cards)) jokers cur =
    buildStreakF fuel (handEnum cards) jokers cur := by
  intro fuel
  induction fuel with
  | zero => intro jokers cur; rfl
  | succ n ih =>
    intro jokers cur
    simp only [buildStreakF]
    have hfst := handEnum_filter_fst_retype g cards
      (fun cd => cd.number == cur) (fun cd => rfl)
    have hlen : ((handEnum (retype g cards)).filter
        (fun p => p.2.number == cur)).length =
        ((handEnum cards).filter (fun p => p.2.number == cur)).length := by
      have := congrArg List.length hfst
      rwa [List.length_map, List.length_map] at this
    have hempty : ((handEnum (retype g cards)).filter
        (fun p => p.2.number == cur)).isEmpty =
        ((handEnum cards).filter (fun p => p.2.number == cur)).isEmpty := by
      rw [Bool.eq_iff_iff, List.isEmpty_iff_length_eq_zero,
        List.isEmpty_iff_length_eq_zero, hlen]
    rw [hempty, hfst]
    simp only [ih]

theorem runPossF_retype (g : Card → String) (cards : List Card) :
    ∀ (fuel k : ℕ) (cur : ℤ),
    runPossF fuel k (handEnum (retype g cards)) cur =
    runPossF fuel k (handEnum cards) cur := by
  intro fuel
  induction fuel with
  | zero => intro k cur; rfl
  | succ n ih =>
    intro k cur
    simp only [runPossF]
    by_cases hle : cur ≤ 12
    · rw [if_pos hle, if_pos hle, availableJokers_retype, buildStreakF_retype,
        handEnum_length, handEnum_length, retype_length]
      simp only [ih]
    · rw [if_neg hle, if_neg hle]

theorem anyListPossibilities_retype (g : Card → String) (cards : List Card)
    (k : ℕ) : anyListPossibilities k (retype g cards) =
      anyListPossibilities k cards := by
  unfold anyListPossibilities
  exact runPossF_retype g cards 13 k 1

theorem all_same_colour_retype (g : Card → String) (cards : List Card)
    (positions : Finset ℕ) :
    all_same_colour (retype g cards) positions =
      all_same_colour cards positions := by
  unfold all_same_colour
  have hnum : numAt (retype g cards) = numAt cards :=
    funext (numAt_retype g cards)
  have hcol : colAt (retype g cards) = colAt cards :=
    funext (colAt_retype g cards)
  rw [hnum, hcol]

theorem matchesByNumber_retype (g : Card → String) (cards : List Card)
    (n : ℤ) : matchesByNumber (retype g cards) n = matchesByNumber cards n := by
  unfold matchesByNumber
  have hnum : numAt (retype g cards) = numAt cards :=
    funext (numAt_retype g cards)
  rw [hnum, retype_length]

theorem matchesByColour_retype (g : Card → String) (cards : List Card)
    (col : String) :
    matchesByColour (retype g cards) col = matchesByColour cards col := by
  unfold matchesByColour
  have hnum : numAt (retype g cards) = numAt cards :=
    funext (numAt_retype g cards)
  have hcol : colAt (retype g cards) = colAt cards :=
    funext (colAt_retype g cards)
  rw [hnum, hcol, retype_length]

theorem sameNumberCandidates_retype (g : Card → String) (cards : List Card) :
    sameNumberCandidates (retype g cards) = sameNumberCandidates cards := by
  unfold sameNumberCandidates retype
  rw [List.filter_map, List.map_map]
  have h1 : ((fun c : Card => c.number != -1) ∘
      fun cd : Card => (⟨cd.colour, cd.number, g cd⟩ : Card)) =
      fun c : Card => c.number != -1 := rfl
  have h2 : ((fun c : Card => c.number) ∘
      fun cd : Card => (⟨cd.colour, cd.number, g cd⟩ : Card)) =
      fun c : Card => c.number := rfl
  rw [h1, h2]

theorem sameColourCandidates_retype (g : Card → String) (cards : List Card) :
    sameColourCandidates (retype g cards) = sameColourCandidates cards := by
  unfold sameColourCandidates retype
  rw [List.filter_map, List.map_map]
  have h1 : ((fun c : Card => !(strContainsSub c.colour "black")) ∘
      fun cd : Card => (⟨cd.colour, cd.number, g cd⟩ : Card)) =
      fun c : Card => !(strContainsSub c.colour "black") := rfl
  have h2 : ((fun c : Card => c.colour) ∘
      fun cd : Card => (⟨cd.colour, cd.number, g cd⟩ : Card)) =
      fun c : Card => c.colour := rfl
  rw [h1, h2]

theorem find_matches_number_retype (g : Card → String) (cards : List Card)
    (k : ℕ) (n : ℤ) : find_matches_number k (retype g cards) n =
      find_matches_number k cards n := by
  unfold find_matches_number
  rw [matchesByNumber_retype]

theorem find_matches_colour_retype (g : Card → String) (cards : List Card)
    (k : ℕ) (col : String) : find_matches_colour k (retype g cards) col =
      find_matches_colour k cards col := by
  unfold find_matches_colour
  rw [matchesByColour_retype]

mutual

theorem possibilities_retype : ∀ (c : Cond) (g : Card → String)
    (cards : List Card),
    possibilities c (retype g cards) = possibilities c cards
  | .sameNumber k, g, cards => by
    simp only [possibilities]
    rw [sameNumberCandidates_retype]
    congr 1
    apply List.map_congr_left
    intro n _
    exact find_matches_number_retype g cards k n
  | .sameColour k, g, cards => by
    simp only [possibilities]
    rw [sameColourCandidates_retype]
    congr 1
    apply List.map_congr_left
    intro col _
    exact find_matches_colour_retype g cards k col
  | .anyList k, g, cards => by
    simp only [possibilities]
    exact anyListPossibilities_retype g cards k
  | .sameColourList k, g, cards => by
    simp only [possibilities]
    unfold sameColourListPossibilities
    rw [anyListPossibilities_retype]
    apply List.filter_congr
    intro s _
    rw [all_same_colour_retype]
  | .group subs, g, cards => by
    simp only [possibilities]
    rw [possList_retype subs g cards]

theorem possList_retype : ∀ (cs : List Cond) (g : Card → String)
    (cards : List Card), possList cs (retype g cards) = possList cs cards
  | [], _, _ => rfl
  | c :: cs, g, cards => by
    simp only [possList]
    rw [possibilities_retype c g cards, possList_retype cs g cards]

end

/-- Claim C10 (amended): the card's `type` field is never consulted during
evaluation: rewriting every card's type field arbitrarily (keeping colour
and number) leaves every condition's possibility list, and hence the
pass/fail outcome, unchanged.  (The original claim's stronger assertion —
that wildcard behaviour depends only on `number = -1` — is false: a
wildcard's COLOUR is consulted by the colour-candidate step and by the
monochrome filter, see `wildcard_colour_consulted`.) -/
theorem type_field_never_consulted (c : Cond) (g : Card → String)
    (cards : List Card) :
    possibilities c (retype g cards) = possibilities c cards ∧
    hand_passed c (retype g cards) = hand_passed c cards := by
  refine ⟨possibilities_retype c g cards, ?_⟩
  unfold hand_passed
  rw [possibilities_retype c g cards]

theorem hand_size_validation_witness :
    ((∃ e, handInit testHand = Except.error e) ↔ testHand.length ≠ 10) ∧
    (testHand.length = 10 → handInit testHand = Except.ok testHand) :=
  hand_size_validation testHand
